import Mathlib

/-!
Verification of the ITNB scraping / GroundX ingestion pipeline
(`src/scraper.py`, `src/ingest.py`, `src/config.py`).

The Python sources are shallowly embedded here: pure helpers become Lean
functions over `List Char` / `String`, the stateful crawl and ingestion
loops become explicit state-passing functions, and interactions with the
outside world (HTTP fetches, the GroundX SDK, hashing, clocks, Python's
randomized set-iteration order) are supplied as explicit environment
parameters so that every run of the embedded code is a pure function of
its environment.
-/

set_option maxHeartbeats 4000000
set_option maxRecDepth 8000

namespace ItnbRag

/-! ## Character and list utilities (Python string primitives) -/

/-- ASCII lower-casing of one character: the behaviour of Python's
`str.lower` / `re.IGNORECASE` on the ASCII inputs relevant here. -/
def asciiLower (c : Char) : Char :=
  if 65 ≤ c.toNat ∧ c.toNat ≤ 90 then Char.ofNat (c.toNat + 32) else c

def asciiLowerList (l : List Char) : List Char := l.map asciiLower

/-- The ASCII whitespace characters recognised by Python's `str.split()`
and `str.strip()` (the inputs handled here contain no further Unicode
whitespace). -/
def isPySpace (c : Char) : Bool :=
  c == ' ' || c == '\t' || c == '\n' || c == '\r' || c == '\x0b' || c == '\x0c'

/-- Decidable prefix test on character lists. -/
def isPrefixList : List Char → List Char → Bool
  | [], _ => true
  | _ :: _, [] => false
  | a :: as, b :: bs => a == b && isPrefixList as bs

/-- Python's substring containment `needle in hay`. -/
def containsSub (needle : List Char) : List Char → Bool
  | [] => needle.isEmpty
  | c :: t => isPrefixList needle (c :: t) || containsSub needle t

/-- Python's `str.endswith` for one suffix. -/
def listEndsWith (l s : List Char) : Bool := isPrefixList s.reverse l.reverse

/-- Python's `str.endswith` applied to a tuple of suffixes. -/
def endsWithAny (l : List Char) (exts : List String) : Bool :=
  exts.any fun e => listEndsWith l e.data

/-- Python's `str.rstrip('/')`: remove every trailing `'/'`. -/
def rstripSlash (l : List Char) : List Char :=
  (l.reverse.dropWhile fun c => c == '/').reverse

/-- Python's `str.strip()` on the ASCII whitespace of `isPySpace`. -/
def stripList (l : List Char) : List Char :=
  ((l.dropWhile isPySpace).reverse.dropWhile isPySpace).reverse

/-- Split a character list at the first occurrence of `c`:
`splitFirst c l = some (a, b)` iff `l = a ++ c :: b` with `c ∉ a`,
and `none` iff `c ∉ l`.  This is the engine behind the embeddings of
Python's `str.find` / `str.split(sep, 1)`. -/
def splitFirst (c : Char) : List Char → Option (List Char × List Char)
  | [] => none
  | x :: t =>
    if x == c then some ([], t)
    else (splitFirst c t).map fun p => (x :: p.1, p.2)

/-- Word counter of Python's `len(s.split())`: the number of maximal runs
of non-whitespace characters.  The boolean argument records whether the
scan is currently inside a word. -/
def countWordsGo : Bool → List Char → Nat
  | _, [] => 0
  | inWord, c :: t =>
    if isPySpace c then countWordsGo false t
    else (if inWord then 0 else 1) + countWordsGo true t

def countWords (s : String) : Nat := countWordsGo false s.data

/-! ## The content normalizer `ITNBScraper._clean_content`

The two noise patterns of the source are
`r'How you want to deal with cookies.*?Allow All\n?'` and
`r'Manage CookiesAllow All\n?'`, both substituted by `''` with
`re.DOTALL | re.IGNORECASE`.  Each is of the shape
`literal₁ .*? literal₂ \n?` (the second with an empty middle part, i.e.
`literal₂` empty), so one generic lazy substitution function covers both:
a match starting at position `i` exists iff `pre` matches
case-insensitively at `i` and `post` occurs case-insensitively anywhere
at or after `i + len pre`; the lazy `.*?` picks the earliest such `post`,
and a single following newline is consumed when present.  `re.sub`
removes the leftmost match and continues scanning after its end. -/

/-- Case-insensitive prefix test (`re.IGNORECASE` on ASCII). -/
def isPrefixCI : List Char → List Char → Bool
  | [], _ => true
  | _ :: _, [] => false
  | a :: as, b :: bs => asciiLower a == asciiLower b && isPrefixCI as bs

/-- Drop everything up to and including the earliest case-insensitive
occurrence of `post`; `none` when `post` does not occur. -/
def dropAfterFirstCI (post : List Char) : List Char → Option (List Char)
  | [] => if post.isEmpty then some [] else none
  | c :: t =>
    if isPrefixCI post (c :: t) then some ((c :: t).drop post.length)
    else dropAfterFirstCI post t

/-- Consume the optional trailing newline of the `\n?` in both patterns. -/
def dropOptionalNl : List Char → List Char
  | '\n' :: t => t
  | l => l

/-- If a match of `pre .*? post \n?` starts at the head of `l`, return
everything after the match. -/
def bannerMatchRest (pre post : List Char) (l : List Char) : Option (List Char) :=
  if isPrefixCI pre l then
    (dropAfterFirstCI post (l.drop pre.length)).map dropOptionalNl
  else none

/-- Scanning loop of `re.sub(pattern, '', s)`: try a match at every
position, removing the leftmost match and continuing after its end.  The
fuel is an upper bound on the number of scan steps; `reSubLazyCI` below
supplies `length + 1`, which suffices because every step consumes at
least one character (the patterns of the source have non-empty `pre`). -/
def reSubGo (pre post : List Char) : Nat → List Char → List Char
  | 0, l => l
  | _ + 1, [] => []
  | fuel + 1, c :: t =>
    match bannerMatchRest pre post (c :: t) with
    | some rest => reSubGo pre post fuel rest
    | none => c :: reSubGo pre post fuel t

def reSubLazyCI (pre post : List Char) (l : List Char) : List Char :=
  reSubGo pre post (l.length + 1) l

/-- Count the leading newlines of a list. -/
def countLeadingNl : List Char → Nat
  | '\n' :: t => countLeadingNl t + 1
  | _ => 0

/-- `re.sub(r'\n\x7b3,\x7d', '\n\n', s)`: every maximal run of three or
more newlines is replaced by exactly two.  Fuel as in `reSubGo`. -/
def collapseGo : Nat → List Char → List Char
  | 0, l => l
  | _ + 1, [] => []
  | fuel + 1, c :: t =>
    if c == '\n' then
      let n := countLeadingNl (c :: t)
      if 3 ≤ n then '\n' :: '\n' :: collapseGo fuel ((c :: t).drop n)
      else c :: collapseGo fuel t
    else c :: collapseGo fuel t

def collapseNl (l : List Char) : List Char := collapseGo (l.length + 1) l

def cookiePatternPre : List Char := "How you want to deal with cookies".data

def cookiePatternPost : List Char := "Allow All".data

def manageCookiesLit : List Char := "Manage CookiesAllow All".data

/-- `ITNBScraper._clean_content`: apply the two noise patterns in order,
collapse runs of three or more newlines to two, then strip. -/
def cleanContent (content : String) : String :=
  let c1 := reSubLazyCI cookiePatternPre cookiePatternPost content.data
  let c2 := reSubLazyCI manageCookiesLit [] c1
  ⟨stripList (collapseNl c2)⟩

/-! ## URL parsing (`urllib.parse.urlparse`)

`_extract_links` and `_is_valid_url` rely on CPython's `urlparse`, so
its behaviour on the URL strings of this pipeline is embedded here:
the pre-parse sanitisation (strip C0 controls and spaces from the left,
remove tab/CR/LF everywhere), the scheme rule (the text before the first
`':'` is a scheme iff it is non-empty, starts with an ASCII letter and
consists of scheme characters; it is lower-cased), the netloc rule (only
after a leading `'//'`, up to the first of `'/'`, `'?'`, `'#'`; its case
is preserved), fragment then query splitting at the first `'#'` / `'?'`,
and `urlparse`'s extra step of splitting `';'`-parameters off the last
path segment for schemes that use them.  IPv6-bracket validation and
non-ASCII case folding are outside the inputs of this pipeline and are
not modelled. -/

/-- WHATWG C0-control-or-space class, left-stripped by `urlsplit`. -/
def c0OrSpace (c : Char) : Bool := c.toNat ≤ 32

/-- The bytes CPython removes from anywhere in the URL. -/
def tabCrLf (c : Char) : Bool := c == '\t' || c == '\r' || c == '\n'

def preCleanUrl (l : List Char) : List Char :=
  (l.dropWhile c0OrSpace).filter fun c => !tabCrLf c

def isAsciiAlpha (c : Char) : Bool :=
  (decide ('a' ≤ c) && decide (c ≤ 'z')) || (decide ('A' ≤ c) && decide (c ≤ 'Z'))

def isAsciiDigit (c : Char) : Bool := decide ('0' ≤ c) && decide (c ≤ '9')

def schemeChar (c : Char) : Bool :=
  isAsciiAlpha c || isAsciiDigit c || c == '+' || c == '-' || c == '.'

/-- Scheme extraction: returns `(scheme, remainder)`; the scheme is `[]`
and the remainder the whole input when no valid scheme is present. -/
def parseScheme (l : List Char) : List Char × List Char :=
  match splitFirst ':' l with
  | some (pre, post) =>
    if pre ≠ [] ∧ isAsciiAlpha (pre.headD ' ') = true ∧ pre.all schemeChar = true
    then (asciiLowerList pre, post) else ([], l)
  | none => ([], l)

def notUrlDelim (c : Char) : Bool := !(c == '/' || c == '?' || c == '#')

/-- Netloc extraction: after a leading `'//'`, the netloc runs to the
first of `'/'`, `'?'`, `'#'`. -/
def splitNetloc (r : List Char) : List Char × List Char :=
  if r.take 2 = ['/', '/'] then
    ((r.drop 2).takeWhile notUrlDelim, (r.drop 2).dropWhile notUrlDelim)
  else ([], r)

def splitFragment (r : List Char) : List Char × List Char :=
  match splitFirst '#' r with
  | some (a, b) => (a, b)
  | none => (r, [])

def splitQuery (r : List Char) : List Char × List Char :=
  match splitFirst '?' r with
  | some (a, b) => (a, b)
  | none => (r, [])

/-- `l = a ++ '/' :: b` with `'/' ∉ b`, i.e. splitting at the last slash. -/
def splitLastSlash (l : List Char) : Option (List Char × List Char) :=
  match splitFirst '/' l.reverse with
  | some (bRev, aRev) => some (aRev.reverse, bRev.reverse)
  | none => none

/-- CPython `_splitparams`: drop the `';'`-parameters of the last path
segment (of the whole path when it contains no `'/'`). -/
def dropParams (l : List Char) : List Char :=
  match splitLastSlash l with
  | some (a, b) =>
    match splitFirst ';' b with
    | some (b1, _) => a ++ '/' :: b1
    | none => l
  | none =>
    match splitFirst ';' l with
    | some (l1, _) => l1
    | none => l

/-- `urllib.parse.uses_params`. -/
def uses_params : List String :=
  ["", "ftp", "hdl", "prospero", "http", "imap", "https", "shttp",
   "rtsp", "rtsps", "rtspu", "sip", "sips", "mms", "sftp", "tel"]

/-- `urlparse` applies `_splitparams` only when the scheme uses params
and the path contains `';'`. -/
def paramsPath (scheme raw : List Char) : List Char :=
  if (⟨scheme⟩ : String) ∈ uses_params ∧ ';' ∈ raw then dropParams raw else raw

structure UrlParts where
  scheme : List Char
  netloc : List Char
  path : List Char
  query : List Char
  fragment : List Char
deriving DecidableEq

def parseUrlCore (l : List Char) : UrlParts :=
  let sr := parseScheme l
  let nr := splitNetloc sr.2
  let rf := splitFragment nr.2
  let rq := splitQuery rf.1
  ⟨sr.1, nr.1, paramsPath sr.1 rq.1, rq.2, rf.2⟩

def parseUrl (u : String) : UrlParts := parseUrlCore (preCleanUrl u.data)

/-- The canonical form built at `scraper.py:96-97`:
`f"\x7bparsed.scheme\x7d://\x7bparsed.netloc\x7d\x7bparsed.path\x7d".rstrip('/')`. -/
def canonCore (l : List Char) : List Char :=
  let p := parseUrlCore l
  rstripSlash (p.scheme ++ ':' :: '/' :: '/' :: (p.netloc ++ p.path))

def canonicalize (u : String) : String := ⟨canonCore (preCleanUrl u.data)⟩

/-! ## The scraper (`ITNBScraper`) -/

/-- `ITNBScraper.SKIP_EXTENSIONS`. -/
def SKIP_EXTENSIONS : List String :=
  [".pdf", ".doc", ".docx", ".xls", ".xlsx", ".zip",
   ".png", ".jpg", ".jpeg", ".gif", ".svg"]

/-- `ITNBScraper._is_valid_url`: substring test for the domain, substring
test (or equality) for the English path marker, and a case-folded
extension blacklist. -/
def isValidUrl (u : String) : Bool :=
  let parsed := parseUrl u
  containsSub "itnb.ch".data parsed.netloc
    && (containsSub "/en".data parsed.path || parsed.path == "/en".data)
    && !endsWithAny (asciiLowerList parsed.path) SKIP_EXTENSIONS

/-! ## Link extraction (`ITNBScraper._extract_links`)

The regex `\[([^\]]*)\]\(([^)]+)\)` is deterministic: at a `'['` the
text part must run to the first `']'`, which must be followed by `'('`
and a non-empty URL part running to the first `')'`.  A failed attempt
resumes scanning at the next character; a successful match resumes after
the closing `')'`. -/

/-- Attempt the part of a markdown-link match after its opening `'['`;
on success return the URL part and the rest of the input. -/
def tryLink (l : List Char) : Option (List Char × List Char) :=
  match splitFirst ']' l with
  | none => none
  | some (_, r1) =>
    match r1 with
    | '(' :: r2 =>
      match splitFirst ')' r2 with
      | some (u, r3) => if u = [] then none else some (u, r3)
      | none => none
    | _ => none

/-- `re.findall` scanning loop; returns the URL parts of all matches.
Fuel as in `reSubGo` (each step consumes at least one character). -/
def findLinksGo : Nat → List Char → List String
  | 0, _ => []
  | _ + 1, [] => []
  | fuel + 1, '[' :: t =>
    match tryLink t with
    | some (u, rest) => (⟨u⟩ : String) :: findLinksGo fuel rest
    | none => findLinksGo fuel t
  | fuel + 1, _ :: t => findLinksGo fuel t

def findLinks (l : List Char) : List String := findLinksGo (l.length + 1) l

/-! ## The scraper state machine -/

structure ScrapedDoc where
  doc_id : String
  url : String
  title : String
  content : String
  word_count : Nat
  scraped_at : String
deriving DecidableEq

structure FailedUrl where
  url : String
  error : String
deriving DecidableEq

/-- The mutable crawl state of `ITNBScraper.__init__`: `scraped_data`,
`visited_urls` (a Python `set`, modelled membership-wise by a list) and
`failed_urls`. -/
structure ScraperState where
  scraped_data : List ScrapedDoc
  visited_urls : List String
  failed_urls : List FailedUrl
deriving DecidableEq

def initScraperState : ScraperState := ⟨[], [], []⟩

/-- Outcome of one `crawler.arun` call: `failure` covers both an
unsuccessful `CrawlResult` and a raised exception (the two branches of
`scrape_page` that append to `failed_urls`); `success` carries the
markdown (`result.markdown or ""`) and the page title
(`result.metadata.get("title", "Untitled")`). -/
inductive FetchResult where
  | failure (errorMessage : String)
  | success (markdown : String) (title : String)
deriving DecidableEq

/-- The external collaborators of one crawl run: the network
(`fetch`), the MD5-based `_generate_doc_id`, the clock
(`datetime.now().isoformat()`), the iteration order that Python's
hash-randomised `list(set(...))` imposes on a page's link set
(`setOrder`), and `urllib.parse.urljoin` for relative references
(`ujoin`).  All are fixed for the duration of one run of one process. -/
structure CrawlEnv where
  fetch : String → FetchResult
  docId : String → String
  now : String
  setOrder : List String → List String
  ujoin : String → String → String

def stripUrl (u : String) : String := ⟨rstripSlash u.data⟩

def startsWithStr (s p : String) : Bool := isPrefixList p.data s.data

/-- The per-URL body of `_extract_links`: skip `javascript:`/`#` links,
build the absolute URL, canonicalize, and keep the result when it is
valid and unvisited. -/
def processLink (env : CrawlEnv) (visited : List String) (base url : String) :
    Option String :=
  if startsWithStr url "javascript:" || startsWithStr url "#" then none
  else
    let full :=
      if startsWithStr url "/" then "https://www.itnb.ch" ++ url
      else if startsWithStr url "http" then url
      else env.ujoin base url
    let clean := canonicalize full
    if isValidUrl clean = true ∧ clean ∉ visited then some clean else none

def collectLinks (env : CrawlEnv) (visited : List String) (base : String) :
    List String → List String
  | [] => []
  | u :: rest =>
    match processLink env visited base u with
    | some c => c :: collectLinks env visited base rest
    | none => collectLinks env visited base rest

/-- `ITNBScraper._extract_links`: collect the candidate links in match
order, then return them in the set-iteration order of `list(set(...))`. -/
def extractLinks (env : CrawlEnv) (visited : List String) (content base : String) :
    List String :=
  env.setOrder (collectLinks env visited base (findLinks content.data))

/-- `ITNBScraper.scrape_page`: normalise the URL, skip it when already
visited, otherwise mark it visited and fetch; a failed fetch appends a
`FailedUrl`, a thin page (fewer than 20 words after cleaning) is
discarded silently, and otherwise the structured document is returned. -/
def scrapePage (env : CrawlEnv) (url0 : String) (st : ScraperState) :
    Option ScrapedDoc × ScraperState :=
  let url := stripUrl url0
  if url ∈ st.visited_urls then (none, st)
  else
    let st1 : ScraperState := { st with visited_urls := url :: st.visited_urls }
    match env.fetch url with
    | .failure msg => (none, { st1 with failed_urls := st1.failed_urls ++ [⟨url, msg⟩] })
    | .success markdown title =>
      let content := cleanContent markdown
      if countWords content < 20 then (none, st1)
      else
        (some ⟨env.docId url, url, title, content, countWords content, env.now⟩, st1)

/-- The virtual fetch trace of `scrape_page`: the URLs for which
`crawler.arun` is actually invoked (exactly the not-yet-visited ones). -/
def scrapeFetches (url0 : String) (st : ScraperState) : List String :=
  let url := stripUrl url0
  if url ∈ st.visited_urls then [] else [url]

/-- `for link in new_links: if link not in visited and link not in
urls_to_visit: urls_to_visit.append(link)`. -/
def enqueueLinks (visited : List String) : List String → List String → List String
  | queue, [] => queue
  | queue, link :: rest =>
    if link ∉ visited ∧ link ∉ queue then enqueueLinks visited (queue ++ [link]) rest
    else enqueueLinks visited queue rest

/-- The body of one iteration of the `crawl_website` loop, applied to
the URL popped from the front of the queue: scrape, and on success
append the document and enqueue the freshly extracted links. -/
def crawlStep (env : CrawlEnv) (url : String) (rest : List String)
    (st : ScraperState) : List String × ScraperState :=
  match scrapePage env url st with
  | (some doc, st1) =>
    let st2 : ScraperState := { st1 with scraped_data := st1.scraped_data ++ [doc] }
    (enqueueLinks st2.visited_urls rest (extractLinks env st2.visited_urls doc.content url), st2)
  | (none, st1) => (rest, st1)

/-- The `while urls_to_visit and len(self.scraped_data) < max_pages`
loop of `crawl_website`.  The fuel argument bounds the number of
iterations; every theorem below holds for every fuel value, i.e. at
every point of the run. -/
def crawlLoop (env : CrawlEnv) (maxPages : Nat) :
    Nat → List String → ScraperState → ScraperState
  | 0, _, st => st
  | _ + 1, [], st => st
  | fuel + 1, url :: rest, st =>
    if st.scraped_data.length < maxPages then
      crawlLoop env maxPages fuel (crawlStep env url rest st).1 (crawlStep env url rest st).2
    else st

/-- The fetch trace of a `crawlLoop` run: the URLs passed to
`crawler.arun`, in order. -/
def crawlFetches (env : CrawlEnv) (maxPages : Nat) :
    Nat → List String → ScraperState → List String
  | 0, _, _ => []
  | _ + 1, [], _ => []
  | fuel + 1, url :: rest, st =>
    if st.scraped_data.length < maxPages then
      scrapeFetches url st
        ++ crawlFetches env maxPages fuel (crawlStep env url rest st).1 (crawlStep env url rest st).2
    else []

/-- `ITNBScraper.SEED_URLS`. -/
def SEED_URLS : List String :=
  ["https://www.itnb.ch/en",
   "https://www.itnb.ch/en/about",
   "https://www.itnb.ch/en/services",
   "https://www.itnb.ch/en/solutions",
   "https://www.itnb.ch/en/contact",
   "https://www.itnb.ch/en/partners",
   "https://www.itnb.ch/en/careers",
   "https://www.itnb.ch/en/news",
   "https://www.itnb.ch/en/blog",
   "https://www.itnb.ch/en/team",
   "https://www.itnb.ch/en/privacy",
   "https://www.itnb.ch/en/impressum",
   "https://www.itnb.ch/en/sovereign-orchestrator"]

/-- `ITNBScraper.crawl_website` on a fresh scraper object. -/
def crawlWebsite (env : CrawlEnv) (maxPages fuel : Nat) : ScraperState :=
  crawlLoop env maxPages fuel SEED_URLS initScraperState

/-! ## The ingestion pipeline (`GroundXIngestor`)

`ingest_from_json` reads the scraped snapshot, sets `stats["total"]`,
resolves the bucket, and loops over the documents; every attempt sets
the audit record's status to `"success"` or `"failed"` and increments
exactly one of the two counters.  Remote calls (bucket listing, bucket
creation, per-document upload — the latter also covering the temp-file
write inside the same `try`) are supplied by an environment; a raised
Python exception is an `Except.error` that propagates exactly where the
source has no handler.  Temp-file cleanup, the audit-log file write, the
progress bar and `time.sleep` have no bearing on the returned state and
are not modelled. -/

structure DocJson where
  doc_id : Option String
  url : Option String
  title : Option String
  content : Option String
deriving DecidableEq

/-- The `documents` array of the scraped-content JSON file
(`data.get("documents", [])`). -/
structure ScrapeFile where
  documents : List DocJson
deriving DecidableEq

structure IngestStats where
  total : Nat
  success : Nat
  failed : Nat
deriving DecidableEq

/-- One per-document audit record of `self.results`. -/
structure AuditRecord where
  doc_id : String
  url : String
  title : String
  status : String
  error : Option String
  process_id : Option Nat
deriving DecidableEq

/-- Outcome of one document upload attempt (`self.client.ingest`):
a truthy response with a process id, a falsy response, or a raised
exception. -/
inductive UploadOutcome where
  | ok (processId : Nat)
  | noResponse
  | exn (msg : String)

/-- The remote GroundX service as seen by one run: the bucket listing
(pairs of bucket id and name), bucket creation, and the outcome of the
`i`-th document upload. -/
structure IngestEnv where
  listBuckets : Except String (List (Nat × String))
  createBucket : Except String Nat
  upload : Nat → UploadOutcome

/-- Trace of remote interactions, used to state that a failed run made
no remote call. -/
inductive RemoteEvent where
  | bucketList
  | bucketCreate
  | docUpload (index : Nat)
deriving DecidableEq

inductive IngestError where
  | fileNotFound
  | bucketFailure (msg : String)
deriving DecidableEq

instance {ε α : Type} [DecidableEq ε] [DecidableEq α] : DecidableEq (Except ε α) := fun a b =>
  match a, b with
  | .error x, .error y =>
    if h : x = y then isTrue (congrArg Except.error h)
    else isFalse fun hh => h (by injection hh)
  | .ok x, .ok y =>
    if h : x = y then isTrue (congrArg Except.ok h)
    else isFalse fun hh => h (by injection hh)
  | .error _, .ok _ => isFalse fun hh => Except.noConfusion hh
  | .ok _, .error _ => isFalse fun hh => Except.noConfusion hh

/-- `self.bucket_id`, `self.stats`, `self.results` of
`GroundXIngestor.__init__` (after the API-key check has passed). -/
structure IngestorState where
  bucket_id : Option Nat
  stats : IngestStats
  results : List AuditRecord
deriving DecidableEq

def initIngestorState : IngestorState := ⟨none, ⟨0, 0, 0⟩, []⟩

/-- `GroundXIngestor.__init__`: a missing `GROUNDX_API_KEY` raises
`ValueError` before any work happens (the ConfigurationError of the
design). -/
def ingestorInit (apiKey : Option String) : Except String IngestorState :=
  match apiKey with
  | none => .error "Missing GROUNDX_API_KEY. Check your .env file."
  | some _ => .ok initIngestorState

def findBucket (name : String) : List (Nat × String) → Option Nat
  | [] => none
  | (bid, n) :: rest => if n = name then some bid else findBucket name rest

/-- `GroundXIngestor.get_or_create_bucket`: list buckets, return the
first name match, otherwise create; any exception is logged and
re-raised.  Also returns the remote-interaction trace. -/
def getOrCreateBucket (env : IngestEnv) (bucketName : String) :
    Except String Nat × List RemoteEvent :=
  match env.listBuckets with
  | .error e => (.error e, [.bucketList])
  | .ok bs =>
    match findBucket bucketName bs with
    | some bid => (.ok bid, [.bucketList])
    | none =>
      match env.createBucket with
      | .error e => (.error e, [.bucketList, .bucketCreate])
      | .ok bid => (.ok bid, [.bucketList, .bucketCreate])

/-- The per-document body of the ingestion loop: defaulted fields, one
upload attempt, and the resulting audit record together with the success
flag deciding which counter is incremented. -/
def processOne (env : IngestEnv) (i : Nat) (doc : DocJson) : AuditRecord × Bool :=
  let docId := doc.doc_id.getD "unknown"
  let url := doc.url.getD "unknown"
  let title := doc.title.getD "Untitled"
  match env.upload i with
  | .ok pid => (⟨docId, url, title, "success", none, some pid⟩, true)
  | .noResponse => (⟨docId, url, title, "failed", some "No response from API", none⟩, false)
  | .exn msg => (⟨docId, url, title, "failed", some msg, none⟩, false)

/-- The `for doc in documents` loop of `ingest_from_json`, indexed by
the position of the current document. -/
def processDocs (env : IngestEnv) :
    Nat → List DocJson → IngestStats → List AuditRecord →
    IngestStats × List AuditRecord × List RemoteEvent
  | _, [], stats, results => (stats, results, [])
  | i, doc :: rest, stats, results =>
    let pr := processOne env i doc
    let stats' :=
      if pr.2 then { stats with success := stats.success + 1 }
      else { stats with failed := stats.failed + 1 }
    let out := processDocs env (i + 1) rest stats' (results ++ [pr.1])
    (out.1, out.2.1, .docUpload i :: out.2.2)

/-- `GroundXIngestor.ingest_from_json`: `none` for the input file models
a missing snapshot (`FileNotFoundError` before any remote interaction);
a bucket-resolution failure propagates out as raised; otherwise the
document loop runs to completion and the final stats are returned. -/
def ingestFromJson (env : IngestEnv) (file : Option ScrapeFile)
    (st : IngestorState) :
    Except IngestError IngestStats × IngestorState × List RemoteEvent :=
  match file with
  | none => (.error .fileNotFound, st, [])
  | some data =>
    let docs := data.documents
    let st1 : IngestorState := { st with stats := { st.stats with total := docs.length } }
    match getOrCreateBucket env "itnb-website-content" with
    | (.error e, evs) => (.error (.bucketFailure e), st1, evs)
    | (.ok bid, evs) =>
      let st2 : IngestorState := { st1 with bucket_id := some bid }
      let out := processDocs env 0 docs st2.stats st2.results
      (.ok out.1, { st2 with stats := out.1, results := out.2.1 }, evs ++ out.2.2)

/-! ## The ingestion-job polling state machine

Modelled from the spec: the polling loop of the Ingestion Job Manager
(spec §4.4) is not part of the sources under `src/` — `ingest.py` only
delegates to the SDK via `wait_for_complete=True`.  Per the spec: after
submission the job status is polled at a fixed interval up to a
configured maximum wall-clock timeout; `complete`, `error` and
`cancelled` are the terminal statuses and any other status keeps the
loop polling; if the timeout elapses with no terminal status observed
the job is marked `TIMED_OUT` locally and no exception is raised (the
loop is a total function returning a status and its elapsed time). -/

inductive JobStatus where
  | processing
  | complete
  | jobError
  | cancelled
  | timedOut
deriving DecidableEq

/-- Modelled from the spec: the recognised terminal status values. -/
def terminalStatus (s : String) : Option JobStatus :=
  if s = "complete" then some .complete
  else if s = "error" then some .jobError
  else if s = "cancelled" then some .cancelled
  else none

/-- Modelled from the spec: the polling loop.  `poll i` is the status
string the remote service reports at the `i`-th poll; the first
component of the result is the final local status, the second the
elapsed wall-clock time (`i * interval` when returning after the `i`-th
poll).  The remaining-poll budget starts at `timeout / interval + 1`,
the number of polls that fit before the timeout elapses. -/
def pollGo (poll : Nat → String) (interval : Nat) :
    Nat → Nat → JobStatus × Nat
  | 0, i => (.timedOut, i * interval)
  | k + 1, i =>
    match terminalStatus (poll i) with
    | some t => (t, i * interval)
    | none => pollGo poll interval k (i + 1)

def pollLoop (poll : Nat → String) (interval timeout : Nat) : JobStatus × Nat :=
  pollGo poll interval (timeout / interval + 1) 0

/-! ## Concrete instances

A small concrete web site and remote service used to instantiate the
theorems below.  `siteFetch` serves the seed page with two in-scope
links and two further pages; every other URL fails with a network
error. -/

def seedPage : String :=
  "ITNB provides sovereign digital services for Switzerland with a strong focus on security privacy and trustworthy innovation across many technical domains today [A](/en/a) and [B](/en/b)"

def pageAlpha : String :=
  "Alpha page content with at least twenty words one two three four five six seven eight nine ten eleven twelve thirteen fourteen"

def pageBeta : String :=
  "Beta page content with at least twenty words one two three four five six seven eight nine ten eleven twelve thirteen fourteen"

def siteFetch : String → FetchResult := fun u =>
  if u = "https://www.itnb.ch/en" then .success seedPage "Home"
  else if u = "https://www.itnb.ch/en/a" then .success pageAlpha "Alpha"
  else if u = "https://www.itnb.ch/en/b" then .success pageBeta "Beta"
  else .failure "net error"

/-- A crawl environment over `siteFetch` whose set-iteration order is
the given function: two such environments model two OS processes of the
same program, whose Python hash seeds (hence `list(set(...))` orders)
may differ. -/
def crawlEnvOrd (ord : List String → List String) : CrawlEnv :=
  ⟨siteFetch, fun u => u, "2026-01-01T00:00:00", ord, fun _ u => u⟩

def crawlEnvId : CrawlEnv := crawlEnvOrd fun l => l

def crawlEnvRev : CrawlEnv := crawlEnvOrd fun l => l.reverse

/-- An environment whose only page is thin: ten words of content, below
the 20-word threshold of `scrape_page`. -/
def thinEnv : CrawlEnv :=
  ⟨fun u =>
     if u = "https://www.itnb.ch/en/thin"
     then .success "one two three four five six seven eight nine ten" "Thin"
     else .failure "net error",
   fun u => u, "2026-01-01T00:00:00", (fun l => l), fun _ u => u⟩

def ingestEnvOk : IngestEnv :=
  ⟨.ok [(7, "itnb-website-content")], .ok 9,
   fun i => if i = 0 then .ok 101 else .exn "connection reset"⟩

def ingestEnvBad : IngestEnv :=
  ⟨.error "api down", .ok 9, fun _ => .noResponse⟩

def sampleFile : ScrapeFile :=
  ⟨[⟨some "d1", some "https://www.itnb.ch/en", some "Home", some "body one"⟩,
    ⟨none, none, none, none⟩]⟩

/-- The crafted page on which content normalisation is not idempotent:
removing the `Manage CookiesAllow All` banner splices together a new
match of the first cookie pattern, which only a second normalisation
pass removes. -/
def bannerTrap : String :=
  "How you wManage CookiesAllow Allant to deal with cookies zzz Allow All"

/-! ## Lemmas about `scrape_page` and the crawl loop -/

theorem scrapePage_of_visited (env : CrawlEnv) (url0 : String) (st : ScraperState)
    (h : stripUrl url0 ∈ st.visited_urls) :
    scrapePage env url0 st = (none, st) := by
  simp [scrapePage, h]

theorem scrapePage_of_failure (env : CrawlEnv) (url0 : String) (st : ScraperState)
    (msg : String) (h : stripUrl url0 ∉ st.visited_urls)
    (hf : env.fetch (stripUrl url0) = .failure msg) :
    scrapePage env url0 st =
      (none, ⟨st.scraped_data, stripUrl url0 :: st.visited_urls,
              st.failed_urls ++ [⟨stripUrl url0, msg⟩]⟩) := by
  simp [scrapePage, h, hf]

theorem scrapePage_of_thin (env : CrawlEnv) (url0 : String) (st : ScraperState)
    (md ttl : String) (h : stripUrl url0 ∉ st.visited_urls)
    (hf : env.fetch (stripUrl url0) = .success md ttl)
    (hw : countWords (cleanContent md) < 20) :
    scrapePage env url0 st =
      (none, ⟨st.scraped_data, stripUrl url0 :: st.visited_urls, st.failed_urls⟩) := by
  simp [scrapePage, h, hf, hw]

theorem scrapePage_of_doc (env : CrawlEnv) (url0 : String) (st : ScraperState)
    (md ttl : String) (h : stripUrl url0 ∉ st.visited_urls)
    (hf : env.fetch (stripUrl url0) = .success md ttl)
    (hw : ¬ countWords (cleanContent md) < 20) :
    scrapePage env url0 st =
      (some ⟨env.docId (stripUrl url0), stripUrl url0, ttl, cleanContent md,
             countWords (cleanContent md), env.now⟩,
       ⟨st.scraped_data, stripUrl url0 :: st.visited_urls, st.failed_urls⟩) := by
  simp [scrapePage, h, hf, hw]

theorem scrapePage_visited_of_new (env : CrawlEnv) (url0 : String) (st : ScraperState)
    (h : stripUrl url0 ∉ st.visited_urls) :
    (scrapePage env url0 st).2.visited_urls = stripUrl url0 :: st.visited_urls := by
  cases hf : env.fetch (stripUrl url0) with
  | failure msg => rw [scrapePage_of_failure env url0 st msg h hf]
  | success md ttl =>
    by_cases hw : countWords (cleanContent md) < 20
    · rw [scrapePage_of_thin env url0 st md ttl h hf hw]
    · rw [scrapePage_of_doc env url0 st md ttl h hf hw]

theorem scrapePage_state (env : CrawlEnv) (url0 : String) (st : ScraperState) :
    st.visited_urls ⊆ (scrapePage env url0 st).2.visited_urls
    ∧ (scrapePage env url0 st).2.scraped_data = st.scraped_data
    ∧ (∀ d, (scrapePage env url0 st).1 = some d →
        d.url ∈ (scrapePage env url0 st).2.visited_urls)
    ∧ (∀ f ∈ (scrapePage env url0 st).2.failed_urls,
        f ∈ st.failed_urls ∨ f.url ∈ (scrapePage env url0 st).2.visited_urls) := by
  by_cases h : stripUrl url0 ∈ st.visited_urls
  · rw [scrapePage_of_visited env url0 st h]
    exact ⟨List.Subset.refl _, rfl, by simp, fun f hf => Or.inl hf⟩
  · cases hf : env.fetch (stripUrl url0) with
    | failure msg =>
      rw [scrapePage_of_failure env url0 st msg h hf]
      refine ⟨fun x hx => List.mem_cons_of_mem _ hx, rfl, by simp, fun f hf' => ?_⟩
      rcases List.mem_append.mp hf' with h1 | h1
      · exact Or.inl h1
      · simp only [List.mem_singleton] at h1
        subst h1
        exact Or.inr (List.mem_cons_self _ _)
    | success md ttl =>
      by_cases hw : countWords (cleanContent md) < 20
      · rw [scrapePage_of_thin env url0 st md ttl h hf hw]
        exact ⟨fun x hx => List.mem_cons_of_mem _ hx, rfl, by simp, fun f hf' => Or.inl hf'⟩
      · rw [scrapePage_of_doc env url0 st md ttl h hf hw]
        refine ⟨fun x hx => List.mem_cons_of_mem _ hx, rfl, fun d hd => ?_, fun f hf' => Or.inl hf'⟩
        simp only [Option.some.injEq] at hd
        subst hd
        exact List.mem_cons_self _ _

theorem scrapeFetches_spec (env : CrawlEnv) (url0 : String) (st : ScraperState) :
    (scrapeFetches url0 st).Nodup
    ∧ ∀ u ∈ scrapeFetches url0 st,
        u ∉ st.visited_urls ∧ u ∈ (scrapePage env url0 st).2.visited_urls := by
  unfold scrapeFetches
  by_cases h : stripUrl url0 ∈ st.visited_urls
  · simp [h]
  · simp only [h, if_false]
    refine ⟨List.nodup_singleton _, fun u hu => ?_⟩
    simp only [List.mem_singleton] at hu
    subst hu
    rw [scrapePage_visited_of_new env url0 st h]
    exact ⟨h, List.mem_cons_self _ _⟩

theorem crawlStep_state (env : CrawlEnv) (url : String) (rest : List String)
    (st : ScraperState) :
    st.visited_urls ⊆ (crawlStep env url rest st).2.visited_urls
    ∧ (crawlStep env url rest st).2.visited_urls = (scrapePage env url st).2.visited_urls
    ∧ (crawlStep env url rest st).2.scraped_data.length ≤ st.scraped_data.length + 1
    ∧ ((∀ d ∈ st.scraped_data, d.url ∈ st.visited_urls) →
        ∀ d ∈ (crawlStep env url rest st).2.scraped_data,
          d.url ∈ (crawlStep env url rest st).2.visited_urls)
    ∧ ((∀ f ∈ st.failed_urls, f.url ∈ st.visited_urls) →
        ∀ f ∈ (crawlStep env url rest st).2.failed_urls,
          f.url ∈ (crawlStep env url rest st).2.visited_urls) := by
  have hs := scrapePage_state env url st
  rcases hsp : scrapePage env url st with ⟨od, st1⟩
  rw [hsp] at hs
  cases od with
  | none =>
    have hstep : crawlStep env url rest st = (rest, st1) := by
      simp [crawlStep, hsp]
    rw [hstep]
    refine ⟨hs.1, rfl, ?_, ?_, ?_⟩
    · rw [hs.2.1]; exact Nat.le_succ _
    · intro hd d hdm
      rw [hs.2.1] at hdm
      exact hs.1 (hd d hdm)
    · intro hf f hfm
      rcases hs.2.2.2 f hfm with h1 | h1
      · exact hs.1 (hf f h1)
      · exact h1
  | some doc =>
    have hstep : (crawlStep env url rest st).2 =
        { st1 with scraped_data := st1.scraped_data ++ [doc] } := by
      simp [crawlStep, hsp]
    rw [hstep]
    have h21 : st1.scraped_data = st.scraped_data := hs.2.1
    refine ⟨hs.1, rfl, ?_, ?_, ?_⟩
    · simp only [List.length_append, List.length_singleton, h21, le_refl]
    · intro hd d hdm
      simp only [List.mem_append, List.mem_singleton] at hdm
      rcases hdm with h1 | h1
      · rw [hs.2.1] at h1
        exact hs.1 (hd d h1)
      · subst h1
        exact hs.2.2.1 d rfl
    · intro hf f hfm
      rcases hs.2.2.2 f hfm with h1 | h1
      · exact hs.1 (hf f h1)
      · exact h1

theorem crawlLoop_nil (env : CrawlEnv) (mp fuel : Nat) (st : ScraperState) :
    crawlLoop env mp fuel [] st = st := by
  cases fuel <;> rfl

theorem crawlLoop_cons (env : CrawlEnv) (mp fuel : Nat) (url : String)
    (rest : List String) (st : ScraperState) (h : st.scraped_data.length < mp) :
    crawlLoop env mp (fuel + 1) (url :: rest) st =
      crawlLoop env mp fuel (crawlStep env url rest st).1 (crawlStep env url rest st).2 := by
  simp [crawlLoop, h]

theorem crawlLoop_stop (env : CrawlEnv) (mp fuel : Nat) (url : String)
    (rest : List String) (st : ScraperState) (h : ¬ st.scraped_data.length < mp) :
    crawlLoop env mp (fuel + 1) (url :: rest) st = st := by
  simp [crawlLoop, h]

theorem crawlLoop_visited_mono (env : CrawlEnv) (mp : Nat) :
    ∀ (fuel : Nat) (queue : List String) (st : ScraperState),
      st.visited_urls ⊆ (crawlLoop env mp fuel queue st).visited_urls := by
  intro fuel
  induction fuel with
  | zero => intro queue st; exact List.Subset.refl _
  | succ fuel ih =>
    intro queue st
    cases queue with
    | nil => rw [crawlLoop_nil]; exact List.Subset.refl _
    | cons url rest =>
      by_cases h : st.scraped_data.length < mp
      · rw [crawlLoop_cons env mp fuel url rest st h]
        exact List.Subset.trans (crawlStep_state env url rest st).1 (ih _ _)
      · rw [crawlLoop_stop env mp fuel url rest st h]
        exact List.Subset.refl _

theorem crawlLoop_inv (env : CrawlEnv) (mp : Nat) :
    ∀ (fuel : Nat) (queue : List String) (st : ScraperState),
      st.scraped_data.length ≤ mp →
      (∀ d ∈ st.scraped_data, d.url ∈ st.visited_urls) →
      (∀ f ∈ st.failed_urls, f.url ∈ st.visited_urls) →
      (crawlLoop env mp fuel queue st).scraped_data.length ≤ mp
      ∧ (∀ d ∈ (crawlLoop env mp fuel queue st).scraped_data,
          d.url ∈ (crawlLoop env mp fuel queue st).visited_urls)
      ∧ (∀ f ∈ (crawlLoop env mp fuel queue st).failed_urls,
          f.url ∈ (crawlLoop env mp fuel queue st).visited_urls) := by
  intro fuel
  induction fuel with
  | zero => intro queue st h1 h2 h3; exact ⟨h1, h2, h3⟩
  | succ fuel ih =>
    intro queue st h1 h2 h3
    cases queue with
    | nil => rw [crawlLoop_nil]; exact ⟨h1, h2, h3⟩
    | cons url rest =>
      by_cases h : st.scraped_data.length < mp
      · rw [crawlLoop_cons env mp fuel url rest st h]
        have hc := crawlStep_state env url rest st
        exact ih _ _ (Nat.le_trans hc.2.2.1 h) (hc.2.2.2.1 h2) (hc.2.2.2.2 h3)
      · rw [crawlLoop_stop env mp fuel url rest st h]
        exact ⟨h1, h2, h3⟩

theorem crawlFetches_spec (env : CrawlEnv) (mp : Nat) :
    ∀ (fuel : Nat) (queue : List String) (st : ScraperState),
      (crawlFetches env mp fuel queue st).Nodup
      ∧ ∀ u ∈ crawlFetches env mp fuel queue st,
          u ∉ st.visited_urls ∧ u ∈ (crawlLoop env mp fuel queue st).visited_urls := by
  intro fuel
  induction fuel with
  | zero => intro queue st; simp [crawlFetches, crawlLoop]
  | succ fuel ih =>
    intro queue st
    cases queue with
    | nil => simp [crawlFetches, crawlLoop_nil]
    | cons url rest =>
      by_cases h : st.scraped_data.length < mp
      · have hfe : crawlFetches env mp (fuel + 1) (url :: rest) st =
            scrapeFetches url st
              ++ crawlFetches env mp fuel (crawlStep env url rest st).1
                  (crawlStep env url rest st).2 := by
          simp [crawlFetches, h]
        rw [hfe, crawlLoop_cons env mp fuel url rest st h]
        have hsf := scrapeFetches_spec env url st
        have hih := ih (crawlStep env url rest st).1 (crawlStep env url rest st).2
        have hcs := crawlStep_state env url rest st
        constructor
        · refine List.Nodup.append hsf.1 hih.1 ?_
          intro u hu hu'
          have h1 : u ∈ (crawlStep env url rest st).2.visited_urls := by
            rw [hcs.2.1]; exact (hsf.2 u hu).2
          exact (hih.2 u hu').1 h1
        · intro u hu
          rcases List.mem_append.mp hu with h1 | h1
          · refine ⟨(hsf.2 u h1).1, ?_⟩
            have h2 : u ∈ (crawlStep env url rest st).2.visited_urls := by
              rw [hcs.2.1]; exact (hsf.2 u h1).2
            exact crawlLoop_visited_mono env mp fuel _ _ h2
          · exact ⟨fun hv => (hih.2 u h1).1 (hcs.1 hv), (hih.2 u h1).2⟩
      · have hfe : crawlFetches env mp (fuel + 1) (url :: rest) st = [] := by
          simp [crawlFetches, h]
        rw [hfe, crawlLoop_stop env mp fuel url rest st h]
        simp

/-! ## Claim C1 -/

/-- C1: crawl frontier invariant.  At every point of a crawl run (i.e.
for every fuel bound, every queue and every reachable state satisfying
the invariant): the number of collected documents never exceeds
`max_pages`; the visited set contains the URL of every collected
document and of every recorded failed URL; and no URL is fetched twice —
the fetch trace contains no duplicates, each fetched URL was unvisited
at fetch time and is in the visited set afterwards (a queued URL that is
already visited is skipped without fetching, so it never re-enters the
trace). -/
theorem c1_crawl_frontier_invariant (env : CrawlEnv) (mp fuel : Nat)
    (queue : List String) (st : ScraperState)
    (hlen : st.scraped_data.length ≤ mp)
    (hdocs : ∀ d ∈ st.scraped_data, d.url ∈ st.visited_urls)
    (hfail : ∀ f ∈ st.failed_urls, f.url ∈ st.visited_urls) :
    (crawlLoop env mp fuel queue st).scraped_data.length ≤ mp
    ∧ (∀ d ∈ (crawlLoop env mp fuel queue st).scraped_data,
        d.url ∈ (crawlLoop env mp fuel queue st).visited_urls)
    ∧ (∀ f ∈ (crawlLoop env mp fuel queue st).failed_urls,
        f.url ∈ (crawlLoop env mp fuel queue st).visited_urls)
    ∧ (crawlFetches env mp fuel queue st).Nodup
    ∧ (∀ u ∈ crawlFetches env mp fuel queue st,
        u ∉ st.visited_urls ∧ u ∈ (crawlLoop env mp fuel queue st).visited_urls) := by
  have h1 := crawlLoop_inv env mp fuel queue st hlen hdocs hfail
  have h2 := crawlFetches_spec env mp fuel queue st
  exact ⟨h1.1, h1.2.1, h1.2.2, h2.1, h2.2⟩

/-- Witness for C1: the invariant instantiated on the concrete site
`siteFetch` with `max_pages = 2`, starting from the fresh scraper state
on the seed queue. -/
theorem c1_crawl_frontier_invariant_app :
    (crawlLoop crawlEnvId 2 20 SEED_URLS initScraperState).scraped_data.length ≤ 2
    ∧ (∀ d ∈ (crawlLoop crawlEnvId 2 20 SEED_URLS initScraperState).scraped_data,
        d.url ∈ (crawlLoop crawlEnvId 2 20 SEED_URLS initScraperState).visited_urls)
    ∧ (∀ f ∈ (crawlLoop crawlEnvId 2 20 SEED_URLS initScraperState).failed_urls,
        f.url ∈ (crawlLoop crawlEnvId 2 20 SEED_URLS initScraperState).visited_urls)
    ∧ (crawlFetches crawlEnvId 2 20 SEED_URLS initScraperState).Nodup
    ∧ (∀ u ∈ crawlFetches crawlEnvId 2 20 SEED_URLS initScraperState,
        u ∉ initScraperState.visited_urls
        ∧ u ∈ (crawlLoop crawlEnvId 2 20 SEED_URLS initScraperState).visited_urls) :=
  c1_crawl_frontier_invariant crawlEnvId 2 20 SEED_URLS initScraperState
    (by decide) (by simp [initScraperState]) (by simp [initScraperState])

/-! ## Claim C9 -/

/-- C9: a successfully fetched page whose cleaned content has fewer than
20 words is discarded silently — `scrape_page` returns no document and
the state changes only by adding the URL to `visited_urls` (documents
and failed URLs untouched), and the crawl loop simply continues with the
rest of the queue from that state. -/
theorem c9_thin_page_silent_discard (env : CrawlEnv) (url : String)
    (st : ScraperState) (md ttl : String)
    (h : stripUrl url ∉ st.visited_urls)
    (hf : env.fetch (stripUrl url) = .success md ttl)
    (hw : countWords (cleanContent md) < 20) :
    scrapePage env url st =
      (none, ⟨st.scraped_data, stripUrl url :: st.visited_urls, st.failed_urls⟩)
    ∧ ∀ mp fuel rest, st.scraped_data.length < mp →
        crawlLoop env mp (fuel + 1) (url :: rest) st =
          crawlLoop env mp fuel rest
            ⟨st.scraped_data, stripUrl url :: st.visited_urls, st.failed_urls⟩ := by
  have hs := scrapePage_of_thin env url st md ttl h hf hw
  refine ⟨hs, fun mp fuel rest hl => ?_⟩
  rw [crawlLoop_cons env mp fuel url rest st hl]
  have hstep : crawlStep env url rest st =
      (rest, ⟨st.scraped_data, stripUrl url :: st.visited_urls, st.failed_urls⟩) := by
    simp [crawlStep, hs]
  rw [hstep]

/-- Witness for C9: a thin page (nineteen words after cleaning) on a
concrete site; it is marked visited, produces neither a document nor a
failure record, and the loop continues. -/
theorem c9_thin_page_silent_discard_app :
    scrapePage thinEnv "https://www.itnb.ch/en/thin/" initScraperState =
      (none, ⟨[], ["https://www.itnb.ch/en/thin"], []⟩)
    ∧ ∀ mp fuel rest, (initScraperState).scraped_data.length < mp →
        crawlLoop thinEnv mp (fuel + 1) ("https://www.itnb.ch/en/thin/" :: rest) initScraperState =
          crawlLoop thinEnv mp fuel rest ⟨[], ["https://www.itnb.ch/en/thin"], []⟩ :=
  c9_thin_page_silent_discard thinEnv "https://www.itnb.ch/en/thin/" initScraperState
    "one two three four five six seven eight nine ten" "Thin"
    (by decide) (by decide) (by decide)

/-! ## Claim C8 -/

/-- Counterexample to C8 as stated: two runs of the program against the
identical, unchanged site (`crawlEnvId.fetch = crawlEnvRev.fetch`, same
seed list, same page contents, same clock and hash inputs for document
ids) produce different document lists — the first collects the seed page
and `/en/a`, the second the seed page and `/en/b` — because
`_extract_links` returns `list(set(links))` and the iteration order of a
Python `set` of strings differs between processes under hash
randomisation.  The two `setOrder` components are two such orders of the
same two-element link set. -/
theorem c8_fifo_determinism_counterexample :
    crawlEnvId.fetch = crawlEnvRev.fetch
    ∧ (crawlWebsite crawlEnvId 2 20).scraped_data
        ≠ (crawlWebsite crawlEnvRev 2 20).scraped_data := by
  constructor
  · rfl
  · decide

/-- C8 amended: the queue itself is FIFO, and the traversal is
deterministic once the set-iteration order is fixed along with the site:
two runs whose environments agree componentwise (same fetch results,
same doc-id hash, same clock, same `list(set(...))` iteration order,
same `urljoin`) produce identical final states — same documents in the
same order.  Under Python's per-process hash randomisation the
set-iteration order is not fixed across runs, so run-to-run determinism
of the document order (and, under the page cap, of the document set)
does not hold, as the counterexample shows. -/
theorem c8_determinism_amended (e1 e2 : CrawlEnv)
    (hf : e1.fetch = e2.fetch) (hd : e1.docId = e2.docId) (hn : e1.now = e2.now)
    (hs : e1.setOrder = e2.setOrder) (hj : e1.ujoin = e2.ujoin) :
    ∀ mp fuel, crawlWebsite e1 mp fuel = crawlWebsite e2 mp fuel := by
  have he : e1 = e2 := by
    cases e1
    cases e2
    simp only at hf hd hn hs hj
    rw [hf, hd, hn, hs, hj]
  intro mp fuel
  rw [he]

/-- Witness for C8 (amended): two environment values with equal
components yield equal runs. -/
theorem c8_determinism_amended_app :
    crawlWebsite crawlEnvId 2 20 = crawlWebsite (crawlEnvOrd fun l => l) 2 20 :=
  c8_determinism_amended crawlEnvId (crawlEnvOrd fun l => l) rfl rfl rfl rfl rfl 2 20

/-! ## Lemmas about the ingestion loop -/

theorem processOne_status (env : IngestEnv) (i : Nat) (doc : DocJson) :
    (processOne env i doc).1.status = "success" ∨ (processOne env i doc).1.status = "failed" := by
  unfold processOne
  cases env.upload i <;> simp

theorem processDocs_spec (env : IngestEnv) :
    ∀ (docs : List DocJson) (i : Nat) (stats : IngestStats) (results : List AuditRecord),
      (processDocs env i docs stats results).1.success
          + (processDocs env i docs stats results).1.failed
        = stats.success + stats.failed + docs.length
      ∧ (processDocs env i docs stats results).1.total = stats.total
      ∧ (processDocs env i docs stats results).2.1.length = results.length + docs.length
      ∧ ∀ r ∈ (processDocs env i docs stats results).2.1,
          r ∈ results ∨ r.status = "success" ∨ r.status = "failed" := by
  intro docs
  induction docs with
  | nil =>
    intro i stats results
    refine ⟨rfl, rfl, rfl, fun r hr => Or.inl hr⟩
  | cons doc rest ih =>
    intro i stats results
    have hone := processOne_status env i doc
    by_cases h : (processOne env i doc).2
    · have hun : processDocs env i (doc :: rest) stats results =
          (let out := processDocs env (i + 1) rest
              { stats with success := stats.success + 1 }
              (results ++ [(processOne env i doc).1])
           (out.1, out.2.1, .docUpload i :: out.2.2)) := by
        simp [processDocs, h]
      rw [hun]
      have hr := ih (i + 1) { stats with success := stats.success + 1 }
        (results ++ [(processOne env i doc).1])
      refine ⟨?_, hr.2.1, ?_, ?_⟩
      · rw [hr.1]; simp; omega
      · rw [hr.2.2.1]; simp [List.length_append]; omega
      · intro r hrr
        rcases hr.2.2.2 r hrr with h1 | h1
        · rcases List.mem_append.mp h1 with h2 | h2
          · exact Or.inl h2
          · simp only [List.mem_singleton] at h2
            subst h2
            exact Or.inr hone
        · exact Or.inr h1
    · have hun : processDocs env i (doc :: rest) stats results =
          (let out := processDocs env (i + 1) rest
              { stats with failed := stats.failed + 1 }
              (results ++ [(processOne env i doc).1])
           (out.1, out.2.1, .docUpload i :: out.2.2)) := by
        simp [processDocs, h]
      rw [hun]
      have hr := ih (i + 1) { stats with failed := stats.failed + 1 }
        (results ++ [(processOne env i doc).1])
      refine ⟨?_, hr.2.1, ?_, ?_⟩
      · rw [hr.1]; simp; omega
      · rw [hr.2.2.1]; simp [List.length_append]; omega
      · intro r hrr
        rcases hr.2.2.2 r hrr with h1 | h1
        · rcases List.mem_append.mp h1 with h2 | h2
          · exact Or.inl h2
          · simp only [List.mem_singleton] at h2
            subst h2
            exact Or.inr hone
        · exact Or.inr h1

theorem ingestFromJson_of_bucket (env : IngestEnv) (data : ScrapeFile)
    (st : IngestorState) (bid : Nat)
    (hb : (getOrCreateBucket env "itnb-website-content").1 = Except.ok bid) :
    (ingestFromJson env (some data) st).1 =
      Except.ok (processDocs env 0 data.documents
        { st.stats with total := data.documents.length } st.results).1
    ∧ (ingestFromJson env (some data) st).2.1 =
      ⟨some bid,
       (processDocs env 0 data.documents
         { st.stats with total := data.documents.length } st.results).1,
       (processDocs env 0 data.documents
         { st.stats with total := data.documents.length } st.results).2.1⟩ := by
  rcases hgo : getOrCreateBucket env "itnb-website-content" with ⟨r, evs⟩
  rw [hgo] at hb
  simp only at hb
  subst hb
  constructor <;> simp [ingestFromJson, hgo]

/-! ## Claim C2 -/

/-- C2: after an ingestion run that enumerates its total up front
(`stats["total"] = len(documents)`) and whose document loop runs (the
bucket resolved, so every document is processed, each attempt
incrementing exactly one of the success/failed counters),
`stats.success + stats.failed = stats.total` holds on the final state,
and every appended audit record carries status `"success"` or
`"failed"`. -/
theorem c2_ingest_stats_balance (env : IngestEnv) (data : ScrapeFile) (bid : Nat)
    (hb : (getOrCreateBucket env "itnb-website-content").1 = Except.ok bid) :
    (ingestFromJson env (some data) initIngestorState).2.1.stats.success
        + (ingestFromJson env (some data) initIngestorState).2.1.stats.failed
      = (ingestFromJson env (some data) initIngestorState).2.1.stats.total
    ∧ ∀ r ∈ (ingestFromJson env (some data) initIngestorState).2.1.results,
        r.status = "success" ∨ r.status = "failed" := by
  have hi := ingestFromJson_of_bucket env data initIngestorState bid hb
  rw [hi.2]
  have hp := processDocs_spec env data.documents 0
    { initIngestorState.stats with total := data.documents.length }
    initIngestorState.results
  constructor
  · rw [hp.1, hp.2.1]
    simp [initIngestorState]
  · intro r hr
    rcases hp.2.2.2 r hr with h1 | h1
    · simp [initIngestorState] at h1
    · exact h1

/-- Witness for C2: the concrete remote service `ingestEnvOk` (bucket
found, first upload succeeds, second raises) over the two-document
snapshot `sampleFile`. -/
theorem c2_ingest_stats_balance_app :
    (ingestFromJson ingestEnvOk (some sampleFile) initIngestorState).2.1.stats.success
        + (ingestFromJson ingestEnvOk (some sampleFile) initIngestorState).2.1.stats.failed
      = (ingestFromJson ingestEnvOk (some sampleFile) initIngestorState).2.1.stats.total
    ∧ ∀ r ∈ (ingestFromJson ingestEnvOk (some sampleFile) initIngestorState).2.1.results,
        r.status = "success" ∨ r.status = "failed" :=
  c2_ingest_stats_balance ingestEnvOk sampleFile 7 (by decide)

/-! ## Claim C3 -/

/-- Counterexample to C3 as stated: a bucket-resolution failure — a
remote service failure that is not a ConfigurationError — is *not*
captured as audit data and *is* thrown past the run boundary:
`get_or_create_bucket` re-raises, `ingest_from_json` has no handler
around it, and `main` re-raises again.  On the concrete environment
whose bucket listing fails with `"api down"`, the run result is that
raised error and the audit list is left empty. -/
theorem c3_bucket_failure_escapes :
    (ingestFromJson ingestEnvBad (some sampleFile) initIngestorState).1
      = Except.error (IngestError.bucketFailure "api down")
    ∧ (ingestFromJson ingestEnvBad (some sampleFile) initIngestorState).2.1.results = [] := by
  constructor <;> rfl

/-- C3 amended: per-page fetch failures are recorded as `FailedURL`
entries and the traversal continues, and per-document submission
failures are recorded as audit records without aborting the loop (the
run returns normally whenever the bucket resolves); but a
bucket-resolution failure propagates out of `ingest_from_json` as a
raised exception and halts the run — only per-page and per-document
failures are contained, not bucket resolution. -/
theorem c3_failure_containment_amended :
    (∀ (env : CrawlEnv) (url : String) (st : ScraperState) (msg : String),
      stripUrl url ∉ st.visited_urls →
      env.fetch (stripUrl url) = .failure msg →
      scrapePage env url st =
        (none, ⟨st.scraped_data, stripUrl url :: st.visited_urls,
                st.failed_urls ++ [⟨stripUrl url, msg⟩]⟩)
      ∧ ∀ mp fuel rest, st.scraped_data.length < mp →
          crawlLoop env mp (fuel + 1) (url :: rest) st =
            crawlLoop env mp fuel rest
              ⟨st.scraped_data, stripUrl url :: st.visited_urls,
               st.failed_urls ++ [⟨stripUrl url, msg⟩]⟩)
    ∧ (∀ (env : IngestEnv) (data : ScrapeFile) (st : IngestorState) (bid : Nat),
      (getOrCreateBucket env "itnb-website-content").1 = Except.ok bid →
      (ingestFromJson env (some data) st).1 =
        Except.ok (ingestFromJson env (some data) st).2.1.stats
      ∧ (ingestFromJson env (some data) st).2.1.results.length
          = st.results.length + data.documents.length) := by
  constructor
  · intro env url st msg h hf
    have hs := scrapePage_of_failure env url st msg h hf
    refine ⟨hs, fun mp fuel rest hl => ?_⟩
    rw [crawlLoop_cons env mp fuel url rest st hl]
    have hstep : crawlStep env url rest st =
        (rest, ⟨st.scraped_data, stripUrl url :: st.visited_urls,
                st.failed_urls ++ [⟨stripUrl url, msg⟩]⟩) := by
      simp [crawlStep, hs]
    rw [hstep]
  · intro env data st bid hb
    have hi := ingestFromJson_of_bucket env data st bid hb
    constructor
    · rw [hi.1, hi.2]
    · rw [hi.2]
      have hp := processDocs_spec env data.documents 0
        { st.stats with total := data.documents.length } st.results
      exact hp.2.2.1

/-- Witness for C3 (amended): both conjuncts instantiated — a concrete
failing fetch is recorded and the loop continues, and a concrete run
with a resolving bucket returns normally with one audit record per
document. -/
theorem c3_failure_containment_amended_app :
    (scrapePage crawlEnvId "https://www.itnb.ch/en/missing" initScraperState =
        (none, ⟨[], ["https://www.itnb.ch/en/missing"],
                [⟨"https://www.itnb.ch/en/missing", "net error"⟩]⟩))
    ∧ (ingestFromJson ingestEnvOk (some sampleFile) initIngestorState).1 =
        Except.ok (ingestFromJson ingestEnvOk (some sampleFile) initIngestorState).2.1.stats
    ∧ (ingestFromJson ingestEnvOk (some sampleFile) initIngestorState).2.1.results.length
        = initIngestorState.results.length + sampleFile.documents.length :=
  ⟨(c3_failure_containment_amended.1 crawlEnvId "https://www.itnb.ch/en/missing"
      initScraperState "net error" (by decide) (by decide)).1,
   c3_failure_containment_amended.2 ingestEnvOk sampleFile initIngestorState 7 (by decide)⟩

/-! ## Claim C10 -/

/-- C10: when the scraped-content JSON file does not exist,
`ingest_from_json` raises `FileNotFoundError` before any remote
interaction or state change: the returned outcome is the raised error,
the ingestor state is exactly the freshly initialised one (zero
counters, empty audit list, no bucket id), and the remote-interaction
trace is empty. -/
theorem c10_missing_file_clean_abort (env : IngestEnv) :
    ingestFromJson env none initIngestorState =
      (Except.error IngestError.fileNotFound, initIngestorState, [])
    ∧ initIngestorState.stats = ⟨0, 0, 0⟩
    ∧ initIngestorState.results = []
    ∧ initIngestorState.bucket_id = none :=
  ⟨rfl, rfl, rfl, rfl⟩

/-! ## Claim C4 -/

theorem pollGo_elapsed (poll : Nat → String) (interval : Nat) :
    ∀ (k i : Nat), (pollGo poll interval k i).2 ≤ (k + i) * interval := by
  intro k
  induction k with
  | zero => intro i; simp [pollGo]
  | succ k ih =>
    intro i
    simp only [pollGo]
    cases h : terminalStatus (poll i) with
    | some t =>
      simp only
      have : i ≤ k + 1 + i := by omega
      exact Nat.mul_le_mul_right interval this
    | none =>
      simp only
      have := ih (i + 1)
      have heq : k + (i + 1) = k + 1 + i := by omega
      rw [heq] at this
      exact this

theorem pollGo_timedOut (poll : Nat → String) (interval : Nat)
    (h : ∀ i, terminalStatus (poll i) = none) :
    ∀ (k i : Nat), (pollGo poll interval k i).1 = JobStatus.timedOut := by
  intro k
  induction k with
  | zero => intro i; rfl
  | succ k ih =>
    intro i
    simp only [pollGo, h i]
    exact ih (i + 1)

/-- C4: for every submitted job and every sequence of remotely reported
statuses, the polling loop returns within `timeout + one poll interval`
(the elapsed wall-clock time of the returned outcome is at most
`timeout + interval`), and when no terminal status is ever reported the
final local status is `TIMED_OUT`; the loop is a total function, so no
exception is raised on expiry. -/
theorem c4_poll_bounded (poll : Nat → String) (interval timeout : Nat) :
    (pollLoop poll interval timeout).2 ≤ timeout + interval
    ∧ ((∀ i, terminalStatus (poll i) = none) →
        (pollLoop poll interval timeout).1 = JobStatus.timedOut) := by
  constructor
  · have h := pollGo_elapsed poll interval (timeout / interval + 1) 0
    unfold pollLoop
    calc (pollGo poll interval (timeout / interval + 1) 0).2
        ≤ (timeout / interval + 1 + 0) * interval := h
      _ = timeout / interval * interval + interval := by ring
      _ ≤ timeout + interval := by
          have := Nat.div_mul_le_self timeout interval
          omega
  · intro h
    exact pollGo_timedOut poll interval h (timeout / interval + 1) 0

/-- Witness for C4: the spec's own scenario — the remote service reports
`"processing"` forever, the timeout is two poll intervals; the loop
returns `TIMED_OUT` after 15 time units ≤ 10 + 5. -/
theorem c4_poll_bounded_app :
    (pollLoop (fun _ => "processing") 5 10).2 ≤ 10 + 5
    ∧ (pollLoop (fun _ => "processing") 5 10).1 = JobStatus.timedOut :=
  ⟨(c4_poll_bounded (fun _ => "processing") 5 10).1,
   (c4_poll_bounded (fun _ => "processing") 5 10).2 fun _ => rfl⟩

/-! ## Claim C7 -/

/-- C7 fails on the code: the content normalizer is *not* idempotent.
On `bannerTrap`, the first pass removes only the literal
`Manage CookiesAllow All` banner, and that removal splices the
surrounding text into a fresh match of the first cookie pattern
(`How you want to deal with cookies.*?Allow All`), which survives the
first pass; a second pass removes everything.  So
`normalize(normalize(x)) = ""` while `normalize(x)` is the 47-character
spliced banner — the spec's required equation fails at this input. -/
theorem c7_normalizer_not_idempotent :
    cleanContent bannerTrap = "How you want to deal with cookies zzz Allow All"
    ∧ cleanContent (cleanContent bannerTrap) = ""
    ∧ cleanContent (cleanContent bannerTrap) ≠ cleanContent bannerTrap := by
  refine ⟨by decide, by decide, by decide⟩

/-! ## Claim C6 -/

theorem isPrefixList_iff (p l : List Char) : isPrefixList p l = true ↔ p <+: l := by
  induction p generalizing l with
  | nil => simp [isPrefixList, List.nil_prefix]
  | cons a as ih =>
    cases l with
    | nil => simp [isPrefixList]
    | cons b bs =>
      simp [isPrefixList, List.cons_prefix_cons, ih, Bool.and_eq_true, beq_iff_eq]

theorem containsSub_iff (n hay : List Char) : containsSub n hay = true ↔ n <:+: hay := by
  induction hay with
  | nil => simp [containsSub, List.isEmpty_iff, List.infix_nil]
  | cons c t ih =>
    simp [containsSub, Bool.or_eq_true, isPrefixList_iff, ih, List.infix_cons_iff]

theorem listEndsWith_iff (l s : List Char) : listEndsWith l s = true ↔ s <:+ l := by
  unfold listEndsWith
  rw [isPrefixList_iff]
  exact List.reverse_prefix

theorem endsWithAny_iff (l : List Char) (exts : List String) :
    endsWithAny l exts = true ↔ ∃ e ∈ exts, e.data <:+ l := by
  unfold endsWithAny
  simp [List.any_eq_true, listEndsWith_iff]

/-- Counterexample to C6 as stated: the URL
`https://itnb.ch.attacker.com/de/enterprise` is accepted by
`_is_valid_url` although its host is a different domain (it is not
`itnb.ch`, nor even a host ending in `.itnb.ch` — it belongs to
`attacker.com`) and its path lies outside the `/en` locale prefix: the
code only tests that `"itnb.ch"` occurs somewhere inside the host and
that `"/en"` occurs somewhere inside the path (here inside
`/de/enterprise`). -/
theorem c6_validity_counterexample :
    isValidUrl "https://itnb.ch.attacker.com/de/enterprise" = true
    ∧ (parseUrl "https://itnb.ch.attacker.com/de/enterprise").netloc ≠ "itnb.ch".data
    ∧ listEndsWith (parseUrl "https://itnb.ch.attacker.com/de/enterprise").netloc
        ".itnb.ch".data = false
    ∧ isPrefixList "/en".data
        (parseUrl "https://itnb.ch.attacker.com/de/enterprise").path = false := by
  refine ⟨by decide, by decide, by decide, by decide⟩

/-- C6 amended: the validity predicate accepts a URL exactly when
`"itnb.ch"` occurs as a substring of the parsed host, `"/en"` occurs as
a substring of the parsed path (or the path equals `"/en"`), and the
lower-cased path does not end with any blacklisted binary/asset
extension.  Substring containment is strictly weaker than the claim's
domain equality and locale-prefix conditions, so URLs of other domains
or outside `/en` can be accepted (see the counterexample). -/
theorem c6_validity_amended (u : String) :
    isValidUrl u = true ↔
      ("itnb.ch".data <:+: (parseUrl u).netloc
       ∧ ("/en".data <:+: (parseUrl u).path ∨ (parseUrl u).path = "/en".data)
       ∧ ∀ e ∈ SKIP_EXTENSIONS, ¬ e.data <:+ asciiLowerList (parseUrl u).path) := by
  have he : (!endsWithAny (asciiLowerList (parseUrl u).path) SKIP_EXTENSIONS) = true
      ↔ ∀ e ∈ SKIP_EXTENSIONS, ¬ e.data <:+ asciiLowerList (parseUrl u).path := by
    rw [Bool.not_eq_true']
    constructor
    · intro h e hmem hsuf
      have ht : endsWithAny (asciiLowerList (parseUrl u).path) SKIP_EXTENSIONS = true :=
        (endsWithAny_iff _ _).mpr ⟨e, hmem, hsuf⟩
      rw [h] at ht
      exact Bool.noConfusion ht
    · intro h
      cases heq : endsWithAny (asciiLowerList (parseUrl u).path) SKIP_EXTENSIONS with
      | false => rfl
      | true =>
        obtain ⟨e, hmem, hsuf⟩ := (endsWithAny_iff _ _).mp heq
        exact absurd hsuf (h e hmem)
  unfold isValidUrl
  simp only [Bool.and_eq_true, Bool.or_eq_true, containsSub_iff, beq_iff_eq, he]
  tauto

/-- Witness for C6 (amended): the iff instantiated at the base seed URL,
which the predicate accepts. -/
theorem c6_validity_amended_app :
    isValidUrl "https://www.itnb.ch/en" = true ↔
      ("itnb.ch".data <:+: (parseUrl "https://www.itnb.ch/en").netloc
       ∧ ("/en".data <:+: (parseUrl "https://www.itnb.ch/en").path
          ∨ (parseUrl "https://www.itnb.ch/en").path = "/en".data)
       ∧ ∀ e ∈ SKIP_EXTENSIONS,
           ¬ e.data <:+ asciiLowerList (parseUrl "https://www.itnb.ch/en").path) :=
  c6_validity_amended "https://www.itnb.ch/en"

/-! ## Claim C5: supporting lemmas on the URL parser -/

theorem splitFirst_eq_none_iff (c : Char) (l : List Char) :
    splitFirst c l = none ↔ c ∉ l := by
  induction l with
  | nil => simp [splitFirst]
  | cons x t ih =>
    by_cases h : x = c
    · subst h
      simp [splitFirst]
    · simp only [splitFirst, beq_iff_eq, h, if_false, Option.map_eq_none', List.mem_cons]
      rw [ih]
      constructor
      · intro hn
        rintro (h1 | h1)
        · exact h h1.symm
        · exact hn h1
      · intro hn
        exact fun h1 => hn (Or.inr h1)

theorem splitFirst_eq_some (c : Char) :
    ∀ (l a b : List Char), splitFirst c l = some (a, b) → l = a ++ c :: b ∧ c ∉ a := by
  intro l
  induction l with
  | nil => intro a b h; exact absurd h (by simp [splitFirst])
  | cons x t ih =>
    intro a b h
    by_cases hx : x = c
    · subst hx
      simp only [splitFirst, beq_self_eq_true, if_true, Option.some.injEq, Prod.mk.injEq] at h
      rw [← h.1, ← h.2]
      simp
    · simp only [splitFirst, beq_iff_eq, hx, if_false] at h
      cases hsf : splitFirst c t with
      | none => rw [hsf] at h; exact absurd h (by simp)
      | some p =>
        rw [hsf] at h
        simp only [Option.map_some', Option.some.injEq, Prod.mk.injEq] at h
        have := ih p.1 p.2 (by rw [hsf])
        rw [← h.1, ← h.2]
        constructor
        · rw [List.cons_append, this.1]
        · simp only [List.mem_cons]
          rintro (h1 | h1)
          · exact hx h1.symm
          · exact this.2 h1

theorem splitFirst_append_some (c : Char) :
    ∀ (l m a b : List Char), splitFirst c l = some (a, b) →
      splitFirst c (l ++ m) = some (a, b ++ m) := by
  intro l
  induction l with
  | nil => intro m a b h; exact absurd h (by simp [splitFirst])
  | cons x t ih =>
    intro m a b h
    by_cases hx : x = c
    · subst hx
      simp only [splitFirst, beq_self_eq_true, if_true, Option.some.injEq, Prod.mk.injEq] at h
      simp [splitFirst, ← h.1, ← h.2]
    · simp only [splitFirst, beq_iff_eq, hx, if_false] at h
      cases hsf : splitFirst c t with
      | none => rw [hsf] at h; exact absurd h (by simp)
      | some p =>
        rw [hsf] at h
        simp only [Option.map_some', Option.some.injEq, Prod.mk.injEq] at h
        have hrec := ih m p.1 p.2 hsf
        rw [List.cons_append]
        simp only [splitFirst, beq_iff_eq, hx, if_false, hrec, Option.map_some',
          Option.some.injEq, Prod.mk.injEq]
        exact ⟨by rw [← h.1], by rw [← h.2]⟩

theorem takeWhile_of_dropWhile_nil (p : Char → Bool) :
    ∀ l : List Char, l.dropWhile p = [] → l.takeWhile p = l := by
  intro l
  induction l with
  | nil => intro _; rfl
  | cons c t ih =>
    intro h
    by_cases hp : p c
    · rw [List.dropWhile_cons_of_pos hp] at h
      rw [List.takeWhile_cons_of_pos hp, ih h]
    · rw [List.dropWhile_cons_of_neg hp] at h
      exact absurd h (by simp)

theorem takeWhile_append_pos (p : Char → Bool) :
    ∀ l m : List Char, l.dropWhile p ≠ [] →
      (l ++ m).takeWhile p = l.takeWhile p := by
  intro l
  induction l with
  | nil => intro m h; exact absurd rfl h
  | cons c t ih =>
    intro m h
    by_cases hp : p c
    · rw [List.dropWhile_cons_of_pos hp] at h
      rw [List.cons_append, List.takeWhile_cons_of_pos hp,
        List.takeWhile_cons_of_pos hp, ih m h]
    · rw [List.cons_append, List.takeWhile_cons_of_neg hp, List.takeWhile_cons_of_neg hp]

theorem dropWhile_append_pos (p : Char → Bool) :
    ∀ l m : List Char, l.dropWhile p ≠ [] →
      (l ++ m).dropWhile p = l.dropWhile p ++ m := by
  intro l
  induction l with
  | nil => intro m h; exact absurd rfl h
  | cons c t ih =>
    intro m h
    by_cases hp : p c
    · rw [List.dropWhile_cons_of_pos hp] at h
      rw [List.cons_append, List.dropWhile_cons_of_pos hp,
        List.dropWhile_cons_of_pos hp, ih m h]
    · rw [List.cons_append, List.dropWhile_cons_of_neg hp, List.dropWhile_cons_of_neg hp,
        List.cons_append]

theorem takeWhile_append_nil (p : Char → Bool) :
    ∀ l m : List Char, l.dropWhile p = [] →
      (l ++ m).takeWhile p = l ++ m.takeWhile p := by
  intro l
  induction l with
  | nil => intro m _; rfl
  | cons c t ih =>
    intro m h
    by_cases hp : p c
    · rw [List.dropWhile_cons_of_pos hp] at h
      rw [List.cons_append, List.takeWhile_cons_of_pos hp, ih m h, List.cons_append]
    · rw [List.dropWhile_cons_of_neg hp] at h
      exact absurd h (by simp)

theorem dropWhile_append_nil (p : Char → Bool) :
    ∀ l m : List Char, l.dropWhile p = [] →
      (l ++ m).dropWhile p = m.dropWhile p := by
  intro l
  induction l with
  | nil => intro m _; rfl
  | cons c t ih =>
    intro m h
    by_cases hp : p c
    · rw [List.dropWhile_cons_of_pos hp] at h
      rw [List.cons_append, List.dropWhile_cons_of_pos hp, ih m h]
    · rw [List.dropWhile_cons_of_neg hp] at h
      exact absurd h (by simp)

theorem rstripSlash_append_slash (l : List Char) :
    rstripSlash (l ++ ['/']) = rstripSlash l := by
  unfold rstripSlash
  rw [List.reverse_append]
  simp [List.dropWhile_cons_of_pos]

theorem mem_rstripSlash (l : List Char) (x : Char) (h : x ∈ rstripSlash l) : x ∈ l := by
  unfold rstripSlash at h
  rw [List.mem_reverse] at h
  have := (List.dropWhile_sublist (l := l.reverse) (p := fun c => c == '/')).subset h
  rwa [List.mem_reverse] at this

theorem rstripSlash_append_notSlashLast (a b : List Char) (y : Char) (ys : List Char)
    (ha : a.reverse = y :: ys) (hy : (y == '/') = false) :
    rstripSlash (a ++ b) = a ++ rstripSlash b := by
  unfold rstripSlash
  rw [List.reverse_append]
  cases hd : b.reverse.dropWhile (fun c => c == '/') with
  | nil =>
    rw [dropWhile_append_nil _ _ _ hd, ha, List.dropWhile_cons_of_neg (by simp [hy]), ← ha]
    simp
  | cons z zs =>
    rw [dropWhile_append_pos _ _ _ (by rw [hd]; simp), List.reverse_append, hd]
    simp

theorem mem_preCleanUrl (l : List Char) (x : Char) (h : x ∈ preCleanUrl l) : x ∈ l := by
  unfold preCleanUrl at h
  have h1 := List.mem_of_mem_filter h
  exact (List.dropWhile_sublist (l := l) (p := c0OrSpace)).subset h1

theorem preCleanUrl_append_slash (l : List Char) :
    preCleanUrl (l ++ ['/']) = preCleanUrl l ++ ['/'] := by
  unfold preCleanUrl
  cases hd : l.dropWhile c0OrSpace with
  | nil =>
    have h2 : (l ++ ['/']).dropWhile c0OrSpace = ['/'] := by
      rw [dropWhile_append_nil _ _ _ hd]
      decide
    rw [h2]
    decide
  | cons z zs =>
    rw [dropWhile_append_pos _ _ _ (by rw [hd]; simp), List.filter_append, hd]
    congr 1

theorem parseScheme_append_slash (l : List Char) :
    parseScheme (l ++ ['/']) = ((parseScheme l).1, (parseScheme l).2 ++ ['/']) := by
  unfold parseScheme
  cases hsf : splitFirst ':' l with
  | none =>
    have hnm : (':' : Char) ∉ l := (splitFirst_eq_none_iff ':' l).mp hsf
    have hsf2 : splitFirst ':' (l ++ ['/']) = none := by
      rw [splitFirst_eq_none_iff]
      simp only [List.mem_append, List.mem_singleton]
      rintro (h | h)
      · exact hnm h
      · exact absurd h (by decide)
    rw [hsf2]
  | some p =>
    obtain ⟨a, b⟩ := p
    have hsf2 := splitFirst_append_some ':' l ['/'] a b hsf
    rw [hsf2]
    dsimp only
    split_ifs <;> rfl

theorem mem_parseScheme_rest (l : List Char) (x : Char)
    (h : x ∈ (parseScheme l).2) : x ∈ l := by
  unfold parseScheme at h
  cases hsf : splitFirst ':' l with
  | none => rw [hsf] at h; exact h
  | some p =>
    obtain ⟨a, b⟩ := p
    rw [hsf] at h
    have hch := splitFirst_eq_some ':' l a b hsf
    dsimp only at h
    split_ifs at h
    · rw [hch.1]
      simp only [List.mem_append, List.mem_cons]
      exact Or.inr (Or.inr h)
    · exact h

theorem mem_splitNetloc_rest (r : List Char) (x : Char)
    (h : x ∈ (splitNetloc r).2) : x ∈ r := by
  unfold splitNetloc at h
  by_cases ht : r.take 2 = ['/', '/']
  · simp only [ht, if_true] at h
    have h1 := (List.dropWhile_sublist (l := r.drop 2) (p := notUrlDelim)).subset h
    exact (List.drop_sublist 2 r).subset h1
  · simp only [ht, if_false] at h
    exact h

theorem mem_splitNetloc_netloc (r : List Char) (x : Char)
    (h : x ∈ (splitNetloc r).1) : notUrlDelim x = true := by
  unfold splitNetloc at h
  by_cases ht : r.take 2 = ['/', '/']
  · simp only [ht, if_true] at h
    exact List.mem_takeWhile_imp h
  · simp only [ht, if_false] at h
    exact absurd h (List.not_mem_nil x)

theorem mem_splitFragment_first (r : List Char) (x : Char)
    (h : x ∈ (splitFragment r).1) : x ∈ r := by
  unfold splitFragment at h
  cases hsf : splitFirst '#' r with
  | none => rw [hsf] at h; exact h
  | some p =>
    rw [hsf] at h
    have hch := splitFirst_eq_some '#' r p.1 p.2 (by rw [hsf])
    rw [hch.1]
    simp only [List.mem_append]
    exact Or.inl h

theorem hash_not_mem_splitFragment (r : List Char) :
    ('#' : Char) ∉ (splitFragment r).1 := by
  unfold splitFragment
  cases hsf : splitFirst '#' r with
  | none => exact (splitFirst_eq_none_iff '#' r).mp hsf
  | some p => exact (splitFirst_eq_some '#' r p.1 p.2 (by rw [hsf])).2

theorem mem_splitQuery_first (r : List Char) (x : Char)
    (h : x ∈ (splitQuery r).1) : x ∈ r := by
  unfold splitQuery at h
  cases hsf : splitFirst '?' r with
  | none => rw [hsf] at h; exact h
  | some p =>
    rw [hsf] at h
    have hch := splitFirst_eq_some '?' r p.1 p.2 (by rw [hsf])
    rw [hch.1]
    simp only [List.mem_append]
    exact Or.inl h

theorem qmark_not_mem_splitQuery (r : List Char) :
    ('?' : Char) ∉ (splitQuery r).1 := by
  unfold splitQuery
  cases hsf : splitFirst '?' r with
  | none => exact (splitFirst_eq_none_iff '?' r).mp hsf
  | some p => exact (splitFirst_eq_some '?' r p.1 p.2 (by rw [hsf])).2

theorem splitLastSlash_eq_some (l a b : List Char)
    (h : splitLastSlash l = some (a, b)) : l = a ++ '/' :: b := by
  unfold splitLastSlash at h
  cases hsf : splitFirst '/' l.reverse with
  | none => rw [hsf] at h; exact absurd h (by simp)
  | some p =>
    rw [hsf] at h
    simp only [Option.some.injEq, Prod.mk.injEq] at h
    have hch := splitFirst_eq_some '/' l.reverse p.1 p.2 (by rw [hsf])
    have : l = (p.1 ++ '/' :: p.2).reverse := by
      rw [← hch.1, List.reverse_reverse]
    rw [this, List.reverse_append, List.reverse_cons, ← h.1, ← h.2]
    simp

theorem mem_dropParams (l : List Char) (x : Char) (h : x ∈ dropParams l) : x ∈ l := by
  unfold dropParams at h
  cases hls : splitLastSlash l with
  | none =>
    rw [hls] at h
    cases hsf : splitFirst ';' l with
    | none => rw [hsf] at h; exact h
    | some p =>
      obtain ⟨p1, p2⟩ := p
      rw [hsf] at h
      have hch := splitFirst_eq_some ';' l p1 p2 hsf
      rw [hch.1]
      simp only [List.mem_append]
      exact Or.inl h
  | some q =>
    obtain ⟨a, b⟩ := q
    rw [hls] at h
    dsimp only at h
    have hlq := splitLastSlash_eq_some l a b hls
    cases hsf : splitFirst ';' b with
    | none => rw [hsf] at h; exact h
    | some p =>
      obtain ⟨b1, b2⟩ := p
      rw [hsf] at h
      have hch := splitFirst_eq_some ';' b b1 b2 hsf
      rw [hlq, hch.1]
      simp only [List.mem_append, List.mem_cons] at h ⊢
      rcases h with h1 | h1
      · exact Or.inl h1
      · rcases h1 with h2 | h2
        · exact Or.inr (Or.inl h2)
        · exact Or.inr (Or.inr (Or.inl h2))

theorem paramsPath_of_not_mem (s raw : List Char) (h : (';' : Char) ∉ raw) :
    paramsPath s raw = raw := by
  unfold paramsPath
  rw [if_neg]
  rintro ⟨_, hm⟩
  exact h hm

theorem mem_paramsPath (s raw : List Char) (x : Char) (h : x ∈ paramsPath s raw) :
    x ∈ raw := by
  unfold paramsPath at h
  by_cases hc : (⟨s⟩ : String) ∈ uses_params ∧ (';' : Char) ∈ raw
  · simp only [hc, if_true] at h
    exact mem_dropParams raw x h
  · simp only [hc, if_false] at h
    exact h

theorem fragQuery_append_slash (x : List Char) :
    (splitQuery (splitFragment (x ++ ['/'])).1).1 = (splitQuery (splitFragment x).1).1
    ∨ (splitQuery (splitFragment (x ++ ['/'])).1).1
        = (splitQuery (splitFragment x).1).1 ++ ['/'] := by
  by_cases hh : ('#' : Char) ∈ x
  · cases hsf : splitFirst '#' x with
    | none => exact absurd hh ((splitFirst_eq_none_iff '#' x).mp hsf)
    | some p =>
      obtain ⟨a, b⟩ := p
      have hsf2 := splitFirst_append_some '#' x ['/'] a b hsf
      have h1 : (splitFragment x).1 = a := by unfold splitFragment; rw [hsf]
      have h2 : (splitFragment (x ++ ['/'])).1 = a := by unfold splitFragment; rw [hsf2]
      rw [h1, h2]
      exact Or.inl rfl
  · have hh2 : ('#' : Char) ∉ x ++ ['/'] := by
      simp only [List.mem_append, List.mem_singleton]
      rintro (h | h)
      · exact hh h
      · exact absurd h (by decide)
    have h1 : (splitFragment x).1 = x := by
      unfold splitFragment; rw [(splitFirst_eq_none_iff '#' x).mpr hh]
    have h2 : (splitFragment (x ++ ['/'])).1 = x ++ ['/'] := by
      unfold splitFragment; rw [(splitFirst_eq_none_iff '#' (x ++ ['/'])).mpr hh2]
    rw [h1, h2]
    by_cases hq : ('?' : Char) ∈ x
    · cases hsf : splitFirst '?' x with
      | none => exact absurd hq ((splitFirst_eq_none_iff '?' x).mp hsf)
      | some p =>
        obtain ⟨a, b⟩ := p
        have hsf2 := splitFirst_append_some '?' x ['/'] a b hsf
        have q1 : (splitQuery x).1 = a := by unfold splitQuery; rw [hsf]
        have q2 : (splitQuery (x ++ ['/'])).1 = a := by unfold splitQuery; rw [hsf2]
        rw [q1, q2]
        exact Or.inl rfl
    · have hq2 : ('?' : Char) ∉ x ++ ['/'] := by
        simp only [List.mem_append, List.mem_singleton]
        rintro (h | h)
        · exact hq h
        · exact absurd h (by decide)
      have q1 : (splitQuery x).1 = x := by
        unfold splitQuery; rw [(splitFirst_eq_none_iff '?' x).mpr hq]
      have q2 : (splitQuery (x ++ ['/'])).1 = x ++ ['/'] := by
        unfold splitQuery; rw [(splitFirst_eq_none_iff '?' (x ++ ['/'])).mpr hq2]
      rw [q1, q2]
      exact Or.inr rfl

theorem splitNetloc_append_slash (r : List Char) :
    (splitNetloc (r ++ ['/'])).1 = (splitNetloc r).1
    ∧ ((splitNetloc (r ++ ['/'])).2 = (splitNetloc r).2 ++ ['/']
       ∨ ((splitNetloc (r ++ ['/'])).2 = [] ∧ (splitNetloc r).2 = ['/'])
       ∨ ((splitNetloc (r ++ ['/'])).2 = ['/'] ∧ (splitNetloc r).2 = [])) := by
  rcases r with _ | ⟨c, _ | ⟨d, t⟩⟩
  · exact ⟨rfl, Or.inl rfl⟩
  · by_cases hc : c = '/'
    · subst hc
      refine ⟨by decide, Or.inr (Or.inl ⟨by decide, by decide⟩)⟩
    · have h1 : splitNetloc [c] = ([], [c]) := by
        unfold splitNetloc
        rw [if_neg]
        intro hcon
        simp only [List.take] at hcon
        exact absurd hcon (by simp)
      have h2 : splitNetloc [c, '/'] = ([], [c, '/']) := by
        unfold splitNetloc
        rw [if_neg]
        intro hcon
        simp only [List.take] at hcon
        rw [List.cons.injEq] at hcon
        exact hc hcon.1
      rw [show [c] ++ ['/'] = [c, '/'] from rfl, h1, h2]
      exact ⟨rfl, Or.inl rfl⟩
  · have htk : (c :: d :: t).take 2 = [c, d] := rfl
    have htk2 : (c :: d :: t ++ ['/']).take 2 = [c, d] := rfl
    by_cases hcd : [c, d] = ['/', '/']
    · rw [List.cons.injEq, List.cons.injEq] at hcd
      obtain ⟨hc, hd, -⟩ := hcd
      subst hc
      subst hd
      have e1 : splitNetloc ('/' :: '/' :: t) =
          (t.takeWhile notUrlDelim, t.dropWhile notUrlDelim) := by
        unfold splitNetloc
        rw [if_pos htk]
        rfl
      have e2 : splitNetloc ('/' :: '/' :: t ++ ['/']) =
          ((t ++ ['/']).takeWhile notUrlDelim, (t ++ ['/']).dropWhile notUrlDelim) := by
        unfold splitNetloc
        rw [if_pos htk2]
        rfl
      rw [e1, e2]
      by_cases hnd : t.dropWhile notUrlDelim = []
      · have ht1 : (t ++ ['/']).takeWhile notUrlDelim = t := by
          rw [takeWhile_append_nil _ _ _ hnd]
          have : List.takeWhile notUrlDelim ['/'] = [] := by decide
          rw [this, List.append_nil]
        have ht2 : (t ++ ['/']).dropWhile notUrlDelim = ['/'] := by
          rw [dropWhile_append_nil _ _ _ hnd]
          decide
        rw [ht1, ht2, takeWhile_of_dropWhile_nil _ _ hnd, hnd]
        exact ⟨rfl, Or.inr (Or.inr ⟨rfl, rfl⟩)⟩
      · rw [takeWhile_append_pos _ _ _ hnd, dropWhile_append_pos _ _ _ hnd]
        exact ⟨rfl, Or.inl rfl⟩
    · have e1 : splitNetloc (c :: d :: t) = ([], c :: d :: t) := by
        unfold splitNetloc
        rw [htk, if_neg hcd]
      have e2 : splitNetloc (c :: d :: t ++ ['/']) = ([], c :: d :: t ++ ['/']) := by
        unfold splitNetloc
        rw [htk2, if_neg hcd]
      rw [e1, e2]
      exact ⟨rfl, Or.inl rfl⟩

theorem rstripSlash_assemble (A p p' : List Char)
    (h : p' = p ∨ p' = p ++ ['/'] ∨ p = p' ++ ['/']) :
    rstripSlash (A ++ p') = rstripSlash (A ++ p) := by
  rcases h with h | h | h
  · rw [h]
  · rw [h, ← List.append_assoc, rstripSlash_append_slash]
  · rw [h, ← List.append_assoc, rstripSlash_append_slash]

theorem canonCore_eq (m : List Char) :
    canonCore m =
      rstripSlash ((parseScheme m).1 ++ ':' :: '/' :: '/' ::
        ((splitNetloc (parseScheme m).2).1 ++
          paramsPath (parseScheme m).1
            (splitQuery (splitFragment (splitNetloc (parseScheme m).2).2).1).1)) := rfl

theorem canonCore_append_slash (l : List Char) (hsemi : (';' : Char) ∉ l) :
    canonCore (l ++ ['/']) = canonCore l := by
  rw [canonCore_eq, canonCore_eq, parseScheme_append_slash l]
  dsimp only
  have hsr : (';' : Char) ∉ (parseScheme l).2 := fun hm => hsemi (mem_parseScheme_rest l ';' hm)
  obtain ⟨hn, hrest⟩ := splitNetloc_append_slash (parseScheme l).2
  rw [hn]
  have hsrest : (';' : Char) ∉ (splitNetloc (parseScheme l).2).2 := fun hm =>
    hsr (mem_splitNetloc_rest (parseScheme l).2 ';' hm)
  have hA : ∀ pth : List Char,
      (parseScheme l).1 ++ ':' :: '/' :: '/' :: ((splitNetloc (parseScheme l).2).1 ++ pth)
        = ((parseScheme l).1 ++ ':' :: '/' :: '/' :: (splitNetloc (parseScheme l).2).1) ++ pth := by
    intro pth
    rw [List.append_assoc]
    rfl
  have hraw : (';' : Char)
      ∉ (splitQuery (splitFragment (splitNetloc (parseScheme l).2).2).1).1 := fun hm =>
    hsrest (mem_splitFragment_first _ ';' (mem_splitQuery_first _ ';' hm))
  rcases hrest with h | ⟨h1, h2⟩ | ⟨h1, h2⟩
  · rw [h]
    rcases fragQuery_append_slash (splitNetloc (parseScheme l).2).2 with hfq | hfq
    · rw [hfq]
    · rw [hfq]
      have hraw2 : (';' : Char)
          ∉ (splitQuery (splitFragment (splitNetloc (parseScheme l).2).2).1).1 ++ ['/'] := by
        simp only [List.mem_append, List.mem_singleton]
        rintro (hm | hm)
        · exact hraw hm
        · exact absurd hm (by decide)
      rw [paramsPath_of_not_mem _ _ hraw, paramsPath_of_not_mem _ _ hraw2,
        hA, hA, rstripSlash_assemble]
      exact Or.inr (Or.inl rfl)
  · rw [h1, h2]
    have e0 : (splitQuery (splitFragment ([] : List Char)).1).1 = [] := rfl
    have e1 : (splitQuery (splitFragment ['/']).1).1 = ['/'] := rfl
    rw [e0, e1, paramsPath_of_not_mem _ _ (List.not_mem_nil ';'),
      paramsPath_of_not_mem _ _ (by decide), hA, hA, rstripSlash_assemble]
    exact Or.inr (Or.inr rfl)
  · rw [h1, h2]
    have e0 : (splitQuery (splitFragment ([] : List Char)).1).1 = [] := rfl
    have e1 : (splitQuery (splitFragment ['/']).1).1 = ['/'] := rfl
    rw [e0, e1, paramsPath_of_not_mem _ _ (List.not_mem_nil ';'),
      paramsPath_of_not_mem _ _ (by decide), hA, hA, rstripSlash_assemble]
    exact Or.inr (Or.inl rfl)

theorem mem_parseScheme_scheme (l : List Char) (x : Char) (h : x ∈ (parseScheme l).1) :
    ∃ y, schemeChar y = true ∧ x = asciiLower y := by
  unfold parseScheme at h
  cases hsf : splitFirst ':' l with
  | none => rw [hsf] at h; exact absurd h (List.not_mem_nil x)
  | some p =>
    obtain ⟨a, b⟩ := p
    rw [hsf] at h
    dsimp only at h
    split_ifs at h with hc
    · unfold asciiLowerList at h
      obtain ⟨y, hy, hxy⟩ := List.mem_map.mp h
      have hall := hc.2.2
      rw [List.all_eq_true] at hall
      exact ⟨y, hall y hy, hxy.symm⟩
    · exact absurd h (List.not_mem_nil x)

theorem asciiLower_of_schemeChar (y : Char) (hy : schemeChar y = true) :
    asciiLower y ≠ '?' ∧ asciiLower y ≠ '#' := by
  unfold asciiLower
  by_cases h : 65 ≤ y.toNat ∧ y.toNat ≤ 90
  · rw [if_pos h]
    have hb : ∀ m : Nat, m < 91 → 64 < m →
        Char.ofNat (m + 32) ≠ '?' ∧ Char.ofNat (m + 32) ≠ '#' := by decide
    exact hb y.toNat (by omega) (by omega)
  · rw [if_neg h]
    constructor
    · intro he
      rw [he] at hy
      exact absurd hy (by decide)
    · intro he
      rw [he] at hy
      exact absurd hy (by decide)

theorem notUrlDelim_spec (x : Char) (h : notUrlDelim x = true) :
    x ≠ '/' ∧ x ≠ '?' ∧ x ≠ '#' := by
  simp only [notUrlDelim, Bool.not_eq_true', Bool.or_eq_false_iff, beq_eq_false_iff_ne,
    ne_eq] at h
  exact ⟨h.1.1, h.1.2, h.2⟩

theorem canonCore_no_query_fragment (l : List Char) :
    ('?' : Char) ∉ canonCore l ∧ ('#' : Char) ∉ canonCore l := by
  rw [canonCore_eq]
  constructor
  · intro hm
    have hm2 := mem_rstripSlash _ _ hm
    simp only [List.mem_append, List.mem_cons] at hm2
    rcases hm2 with h1 | h1 | h1 | h1 | h1 | h1
    · obtain ⟨y, hy, heq⟩ := mem_parseScheme_scheme l '?' h1
      exact (asciiLower_of_schemeChar y hy).1 heq.symm
    · exact absurd h1 (by decide)
    · exact absurd h1 (by decide)
    · exact absurd h1 (by decide)
    · exact (notUrlDelim_spec '?' (mem_splitNetloc_netloc _ '?' h1)).2.1 rfl
    · exact qmark_not_mem_splitQuery _ (mem_paramsPath _ _ '?' h1)
  · intro hm
    have hm2 := mem_rstripSlash _ _ hm
    simp only [List.mem_append, List.mem_cons] at hm2
    rcases hm2 with h1 | h1 | h1 | h1 | h1 | h1
    · obtain ⟨y, hy, heq⟩ := mem_parseScheme_scheme l '#' h1
      exact (asciiLower_of_schemeChar y hy).2 heq.symm
    · exact absurd h1 (by decide)
    · exact absurd h1 (by decide)
    · exact absurd h1 (by decide)
    · exact (notUrlDelim_spec '#' (mem_splitNetloc_netloc _ '#' h1)).2.2 rfl
    · exact hash_not_mem_splitFragment _
        (mem_splitQuery_first _ '#' (mem_paramsPath _ _ '#' h1))

theorem canonCore_netloc_preserved (l : List Char)
    (hn : (splitNetloc (parseScheme l).2).1 ≠ []) :
    (parseScheme l).1 ++ ':' :: '/' :: '/' :: (splitNetloc (parseScheme l).2).1
      <+: canonCore l := by
  rw [canonCore_eq]
  obtain ⟨y, ys, hrev⟩ : ∃ y ys, (splitNetloc (parseScheme l).2).1.reverse = y :: ys := by
    cases hrv : (splitNetloc (parseScheme l).2).1.reverse with
    | nil => exact absurd (List.reverse_eq_nil_iff.mp hrv) hn
    | cons y ys => exact ⟨y, ys, rfl⟩
  have hy : y ∈ (splitNetloc (parseScheme l).2).1 := by
    rw [← List.mem_reverse, hrev]
    exact List.mem_cons_self _ _
  have hslash : (y == '/') = false := by
    have hsp := notUrlDelim_spec y (mem_splitNetloc_netloc _ y hy)
    simp [hsp.1]
  have hArev : ((parseScheme l).1 ++ ':' :: '/' :: '/' ::
        (splitNetloc (parseScheme l).2).1).reverse
      = y :: (ys ++ ['/', '/', ':'] ++ (parseScheme l).1.reverse) := by
    rw [List.reverse_append,
      show (':' :: '/' :: '/' :: (splitNetloc (parseScheme l).2).1)
        = [':', '/', '/'] ++ (splitNetloc (parseScheme l).2).1 from rfl,
      List.reverse_append, hrev]
    simp
  have hA2 : (parseScheme l).1 ++ ':' :: '/' :: '/' ::
        ((splitNetloc (parseScheme l).2).1 ++
          paramsPath (parseScheme l).1
            (splitQuery (splitFragment (splitNetloc (parseScheme l).2).2).1).1)
      = ((parseScheme l).1 ++ ':' :: '/' :: '/' :: (splitNetloc (parseScheme l).2).1)
        ++ paramsPath (parseScheme l).1
            (splitQuery (splitFragment (splitNetloc (parseScheme l).2).2).1).1 := by
    rw [List.append_assoc]
    rfl
  rw [hA2, rstripSlash_append_notSlashLast _ _ y _ hArev hslash]
  exact ⟨_, rfl⟩

/-! ## Claim C5: the claim theorems -/

/-- Counterexample to C5 as stated, at the concrete accepted URL
`https://WWW.itnb.ch/en/x//`: the canonical form strips *both* trailing
slashes (not exactly one, which would give `.../en/x/`), and the host
keeps its upper-case `WWW` (the claim's lower-cased host would give
`https://www.itnb.ch/en/x`).  A second input shows that even the
single-trailing-slash identification fails when the last path segment
contains `';'`: `urlparse` splits `;`-parameters off the path only when
no trailing slash protects them. -/
theorem c5_canonicalize_counterexample :
    isValidUrl (canonicalize "https://WWW.itnb.ch/en/x//") = true
    ∧ canonicalize "https://WWW.itnb.ch/en/x//" = "https://WWW.itnb.ch/en/x"
    ∧ canonicalize "https://WWW.itnb.ch/en/x//" ≠ "https://WWW.itnb.ch/en/x/"
    ∧ canonicalize "https://WWW.itnb.ch/en/x//" ≠ "https://www.itnb.ch/en/x"
    ∧ canonicalize ("https://www.itnb.ch/en/a;p" ++ "/")
        ≠ canonicalize "https://www.itnb.ch/en/a;p" := by
  refine ⟨by decide, by decide, by decide, by decide, by decide⟩

/-- C5 amended: for every URL string, the canonical form has the query
string, the fragment and (for semicolon-free inputs, which is the
trailing-slash clause's proviso) the path parameters removed — no `'?'`
or `'#'` character survives canonicalization; *all* trailing slashes are
stripped, so for every URL without `';'` the URL with one more trailing
slash canonicalizes identically; and the scheme is lower-cased while the
host's case is preserved — the parsed netloc is embedded verbatim
(case intact) in the canonical form right after `scheme://`. -/
theorem c5_canonicalize_amended :
    (∀ u : String, ('?' : Char) ∉ (canonicalize u).data
      ∧ ('#' : Char) ∉ (canonicalize u).data)
    ∧ (∀ u : String, (';' : Char) ∉ u.data →
        canonicalize (u ++ "/") = canonicalize u)
    ∧ (∀ u : String, (parseUrl u).netloc ≠ [] →
        (parseUrl u).scheme ++ ':' :: '/' :: '/' :: (parseUrl u).netloc
          <+: (canonicalize u).data) := by
  refine ⟨fun u => ?_, fun u hsemi => ?_, fun u hn => ?_⟩
  · exact canonCore_no_query_fragment (preCleanUrl u.data)
  · have hdata : (u ++ "/").data = u.data ++ ['/'] := by
      cases u
      rfl
    have hsemi2 : (';' : Char) ∉ preCleanUrl u.data := fun hm =>
      hsemi (mem_preCleanUrl u.data ';' hm)
    show (⟨canonCore (preCleanUrl (u ++ "/").data)⟩ : String)
        = ⟨canonCore (preCleanUrl u.data)⟩
    rw [hdata, preCleanUrl_append_slash, canonCore_append_slash _ hsemi2]
  · exact canonCore_netloc_preserved (preCleanUrl u.data) hn

/-- Witness for C5 (amended): the three conjuncts instantiated at
concrete URLs, the hypotheses discharged by evaluation. -/
theorem c5_canonicalize_amended_app :
    (('?' : Char) ∉ (canonicalize "https://A.itnb.ch/en/p?q=1#f").data
      ∧ ('#' : Char) ∉ (canonicalize "https://A.itnb.ch/en/p?q=1#f").data)
    ∧ canonicalize ("https://A.itnb.ch/en/p" ++ "/") = canonicalize "https://A.itnb.ch/en/p"
    ∧ (parseUrl "https://A.itnb.ch/en/p").scheme ++ ':' :: '/' :: '/' ::
        (parseUrl "https://A.itnb.ch/en/p").netloc
        <+: (canonicalize "https://A.itnb.ch/en/p").data :=
  ⟨c5_canonicalize_amended.1 "https://A.itnb.ch/en/p?q=1#f",
   c5_canonicalize_amended.2.1 "https://A.itnb.ch/en/p" (by decide),
   c5_canonicalize_amended.2.2 "https://A.itnb.ch/en/p" (by decide)⟩

end ItnbRag
